import Mathlib

/-!
Verification development for the mcp-db core: a transport-level
interception layer for JSON-RPC over streaming HTTP, with a session
registry, local TTL cache, circuit breaker, bounded retries, an
in-memory event store with replay-after-id, and an admission
controller.  Each definition is a shallow embedding of the
corresponding Python source in `src/mcp_db`; doc comments name the
source symbol.  External effects (wall-clock time, uuid draws,
storage results) are passed in explicitly as parameters or oracles.
-/

set_option autoImplicit false

namespace McpDb

/-! ## JSON values

A model of the Python `json` module's value space as used by the
wrapper and interceptor.  Numbers are restricted to integers (the
repository's envelopes carry only integer ids) and strings to
characters that need no escaping; the parser and serializer below are
faithful to `json.loads` / `json.dumps` on this fragment. -/

/-- JSON value.  Mirrors the Python `json` data model restricted to
integer numerals. -/
inductive Json where
  | null
  | bool (b : Bool)
  | num (n : Int)
  | str (s : String)
  | arr (elems : List Json)
  | obj (fields : List (String × Json))
deriving Repr

mutual

/-- Structural equality test for JSON values. -/
def jsonEq : Json → Json → Bool
  | .null, .null => true
  | .bool a, .bool b => a = b
  | .num a, .num b => a = b
  | .str a, .str b => a = b
  | .arr a, .arr b => jsonListEq a b
  | .obj a, .obj b => jsonObjEq a b
  | _, _ => false

def jsonListEq : List Json → List Json → Bool
  | [], [] => true
  | a :: t, b :: u => jsonEq a b && jsonListEq t u
  | _, _ => false

def jsonObjEq : List (String × Json) → List (String × Json) → Bool
  | [], [] => true
  | (k, a) :: t, (k2, b) :: u => k = k2 && jsonEq a b && jsonObjEq t u
  | _, _ => false

end

mutual

/-- `jsonEq` decides equality. -/
def jsonEq_correct : ∀ a b : Json, jsonEq a b = true ↔ a = b
  | .null, b => by cases b <;> simp [jsonEq]
  | .bool x, b => by cases b <;> simp [jsonEq]
  | .num x, b => by cases b <;> simp [jsonEq]
  | .str x, b => by cases b <;> simp [jsonEq]
  | .arr l, b => by
    cases b <;> simp [jsonEq]
    exact jsonListEq_correct l _
  | .obj l, b => by
    cases b <;> simp [jsonEq]
    exact jsonObjEq_correct l _

def jsonListEq_correct : ∀ a b : List Json, jsonListEq a b = true ↔ a = b
  | [], b => by cases b <;> simp [jsonListEq]
  | x :: t, b => by
    cases b with
    | nil => simp [jsonListEq]
    | cons y u => simp [jsonListEq, jsonEq_correct x y, jsonListEq_correct t u]

def jsonObjEq_correct : ∀ a b : List (String × Json), jsonObjEq a b = true ↔ a = b
  | [], b => by cases b <;> simp [jsonObjEq]
  | (k, x) :: t, b => by
    cases b with
    | nil => simp [jsonObjEq]
    | cons p u =>
      obtain ⟨k2, y⟩ := p
      simp [jsonObjEq, jsonEq_correct x y, jsonObjEq_correct t u, and_assoc]

end

instance : DecidableEq Json := fun a b =>
  decidable_of_iff (jsonEq a b = true) (jsonEq_correct a b)

/-- A string character that `json.dumps` emits verbatim and the
parser below accepts inside a string literal: printable, not a quote,
not a backslash. -/
def goodStrChar (c : Char) : Bool :=
  decide (c ≠ '"') && decide (c ≠ '\\') && decide (32 ≤ c.toNat)

/-- Well-formed strings: every character is emitted verbatim by the
serializer. -/
def wfStr (s : String) : Bool := s.toList.all goodStrChar

mutual

/-- Well-formedness of a JSON value: all strings (including object
keys) lie in the unescaped fragment. -/
def wfJson : Json → Bool
  | .null => true
  | .bool _ => true
  | .num _ => true
  | .str s => wfStr s
  | .arr l => wfJsonList l
  | .obj l => wfJsonObj l

def wfJsonList : List Json → Bool
  | [] => true
  | j :: t => wfJson j && wfJsonList t

def wfJsonObj : List (String × Json) → Bool
  | [] => true
  | (k, v) :: t =>
    wfStr k && wfJson v && !(t.any fun p => p.1 = k) && wfJsonObj t

end

/-- The decimal digit character for `d % 10`-style values. -/
def digitChar : Nat → Char
  | 0 => '0' | 1 => '1' | 2 => '2' | 3 => '3' | 4 => '4'
  | 5 => '5' | 6 => '6' | 7 => '7' | 8 => '8' | _ => '9'

/-- Decimal digit list of a natural number, most significant first,
as Python's `str(int)` prints it. -/
def natDigits (n : Nat) : List Char :=
  if _h : n < 10 then [digitChar n]
  else natDigits (n / 10) ++ [digitChar (n % 10)]
decreasing_by exact Nat.div_lt_self (by omega) (by omega)

/-- Decimal rendering of an integer, as Python's `str(int)`. -/
def intChars (n : Int) : List Char :=
  if n < 0 then '-' :: natDigits n.natAbs else natDigits n.natAbs

mutual

/-- `json.dumps` with the default separators `", "` and `": "`, on
the modeled fragment (strings need no escaping).  This is the
serializer the wrapper routes parsed request bodies through
(`asgi_wrapper.py` line 103: `json.dumps(forwarded).encode("utf-8")`). -/
def pyDumps : Json → String
  | .null => "null"
  | .bool true => "true"
  | .bool false => "false"
  | .num n => (intChars n).asString
  | .str s => "\"" ++ s ++ "\""
  | .arr l => "[" ++ pyDumpsList l ++ "]"
  | .obj l => "\x7b" ++ pyDumpsObj l ++ "\x7d"

/-- Serialize array elements joined by `", "`. -/
def pyDumpsList : List Json → String
  | [] => ""
  | [j] => pyDumps j
  | j :: t => pyDumps j ++ ", " ++ pyDumpsList t

/-- Serialize object members `"key": value` joined by `", "`. -/
def pyDumpsObj : List (String × Json) → String
  | [] => ""
  | [(k, v)] => "\"" ++ k ++ "\": " ++ pyDumps v
  | (k, v) :: t => "\"" ++ k ++ "\": " ++ pyDumps v ++ ", " ++ pyDumpsObj t

end

mutual

/-- Structural size of a JSON value, used as a fuel bound for the
parser. -/
def jsize : Json → Nat
  | .null => 1
  | .bool _ => 1
  | .num _ => 1
  | .str _ => 1
  | .arr l => 1 + jsizeList l
  | .obj l => 1 + jsizeObj l

def jsizeList : List Json → Nat
  | [] => 0
  | j :: t => 1 + jsize j + jsizeList t

def jsizeObj : List (String × Json) → Nat
  | [] => 0
  | (_, v) :: t => 1 + jsize v + jsizeObj t

end

/-- Python `dict` assignment `d[k] = v`: overwrite in place if the
key is present, else append at the end (insertion order). -/
def insertField : List (String × Json) → String → Json → List (String × Json)
  | [], k, v => [(k, v)]
  | (k2, v2) :: t, k, v =>
    if k2 = k then (k2, v) :: t else (k2, v2) :: insertField t k v

/-- Python `dict.get(k)`: the binding of `k`, if any. -/
def lookupField : List (String × Json) → String → Option Json
  | [], _ => none
  | (k2, v) :: t, k => if k2 = k then some v else lookupField t k

/-- JSON whitespace accepted between tokens by `json.loads`. -/
def isWsChar (c : Char) : Bool :=
  decide (c = ' ') || decide (c = '\t') || decide (c = '\n') || decide (c = '\r')

/-- Drop leading JSON whitespace. -/
def skipWs (cs : List Char) : List Char := cs.dropWhile isWsChar


/-- ASCII decimal digit test. -/
def isDigitChar (c : Char) : Bool := decide (48 ≤ c.toNat) && decide (c.toNat ≤ 57)

/-- Does the input not begin with a decimal digit?  Serializer output
is followed by a separator, a closing bracket or nothing, so numeral
parsing stops exactly at the end of the numeral. -/
def headNotDigit : List Char → Bool
  | [] => true
  | c :: _ => !isDigitChar c

/-- Numeric value of a digit character. -/
def digitVal (c : Char) : Nat := c.toNat - 48

/-- Fold a digit list into the natural number it denotes. -/
def digitsToNat (ds : List Char) : Nat :=
  ds.foldl (fun a c => a * 10 + digitVal c) 0

/-- Parse the body of a JSON string literal (the opening quote is
already consumed): characters up to the closing quote, restricted to
the unescaped fragment. -/
def parseStr (cs : List Char) : Option (String × List Char) :=
  let body := cs.takeWhile (fun c => decide (c ≠ '"'))
  match cs.dropWhile (fun c => decide (c ≠ '"')) with
  | '"' :: r =>
    if body.all (fun c => decide (c ≠ '\\') && decide (32 ≤ c.toNat)) then
      some (body.asString, r)
    else none
  | _ => none

mutual

/-- Recursive-descent JSON parser modelling `json.loads` on the
fragment above (integer numerals, unescaped strings).  `fuel` bounds
the recursion depth; `pyLoads` supplies enough fuel for any input. -/
def parseVal : Nat → List Char → Option (Json × List Char)
  | 0, _ => none
  | fuel + 1, cs =>
    match skipWs cs with
    | [] => none
    | c :: rest =>
      if c = 'n' then
        match rest with
        | 'u' :: 'l' :: 'l' :: r => some (.null, r)
        | _ => none
      else if c = 't' then
        match rest with
        | 'r' :: 'u' :: 'e' :: r => some (.bool true, r)
        | _ => none
      else if c = 'f' then
        match rest with
        | 'a' :: 'l' :: 's' :: 'e' :: r => some (.bool false, r)
        | _ => none
      else if c = '"' then
        match parseStr rest with
        | some (s, r) => some (.str s, r)
        | none => none
      else if c = '-' then
        match rest with
        | d :: _ =>
          if isDigitChar d then
            some (.num (-(digitsToNat (rest.takeWhile isDigitChar) : Int)),
                  rest.dropWhile isDigitChar)
          else none
        | [] => none
      else if isDigitChar c then
        some (.num (digitsToNat ((c :: rest).takeWhile isDigitChar) : Int),
              (c :: rest).dropWhile isDigitChar)
      else if c = '[' then
        match skipWs rest with
        | ']' :: r => some (.arr [], r)
        | _ => parseElems fuel rest []
      else if c = '\x7b' then
        match skipWs rest with
        | '\x7d' :: r => some (.obj [], r)
        | _ => parseMembers fuel rest []
      else none

/-- Parse the remaining elements of a non-empty array. -/
def parseElems : Nat → List Char → List Json → Option (Json × List Char)
  | 0, _, _ => none
  | fuel + 1, cs, acc =>
    match parseVal fuel cs with
    | none => none
    | some (j, r) =>
      match skipWs r with
      | ',' :: r2 => parseElems fuel r2 (acc ++ [j])
      | ']' :: r2 => some (.arr (acc ++ [j]), r2)
      | _ => none

/-- Parse the remaining members of a non-empty object.  A repeated
key overwrites the earlier binding in place, as assignment into a
Python `dict` does. -/
def parseMembers : Nat → List Char → List (String × Json) → Option (Json × List Char)
  | 0, _, _ => none
  | fuel + 1, cs, acc =>
    match skipWs cs with
    | '"' :: r =>
      match parseStr r with
      | some (k, r1) =>
        match skipWs r1 with
        | ':' :: r2 =>
          match parseVal fuel r2 with
          | some (v, r3) =>
            match skipWs r3 with
            | ',' :: r4 => parseMembers fuel r4 (insertField acc k v)
            | '\x7d' :: r4 => some (.obj (insertField acc k v), r4)
            | _ => none
          | none => none
        | _ => none
      | none => none
    | _ => none

end

/-- `json.loads`: parse a complete document; trailing content other
than whitespace is an error. -/
def pyLoads (s : String) : Option Json :=
  match parseVal (s.length + 1) s.toList with
  | some (j, rest) => if skipWs rest = [] then some j else none
  | none => none

/-- Python truthiness of a JSON value (`if x:`). -/
def pyTruthy : Json → Bool
  | .null => false
  | .bool b => b
  | .num n => decide (n ≠ 0)
  | .str s => decide (s ≠ "")
  | .arr l => decide (l ≠ [])
  | .obj l => decide (l ≠ [])

/-- Is the value a JSON object (a Python `dict`)? -/
def Json.isObjB : Json → Bool
  | .obj _ => true
  | _ => false

/-! ## Generic string-keyed maps

Python `dict`s holding non-JSON values (sessions, streams, the event
index, cache entries) are embedded as association lists with
overwrite-in-place insertion, which preserves key distinctness. -/

/-- `d.get(k)`. -/
def listLookup {α : Type} : List (String × α) → String → Option α
  | [], _ => none
  | (k2, v) :: t, k => if k2 = k then some v else listLookup t k

/-- `d[k] = v`. -/
def listUpsert {α : Type} : List (String × α) → String → α → List (String × α)
  | [], k, v => [(k, v)]
  | (k2, v2) :: t, k, v =>
    if k2 = k then (k2, v) :: t else (k2, v2) :: listUpsert t k v

/-- `d.pop(k, None)`'s effect on the mapping. -/
def listErase {α : Type} : List (String × α) → String → List (String × α)
  | [], _ => []
  | (k2, v) :: t, k => if k2 = k then t else (k2, v) :: listErase t k

/-! ## Transport wrapper request-body path (C8 / asgi_wrapper.py)

`ASGITransportWrapper.wrap` buffers the request body, feeds it through
`ProtocolInterceptor.handle_incoming`, and hands the result to the
engine through `wrapped_receive` (asgi_wrapper.py lines 87–140).  The
model below tracks exactly the bytes handed to the engine.  Storage
side effects of the interceptor are not observable on this path (the
session-manager calls succeed against the in-memory adapter), and a
Python exception anywhere under the wrapper's `try` restores the
original bytes (lines 111–114). -/

/-- Outcome of `ProtocolInterceptor.handle_incoming` (interceptor.py
lines 24–69) as observed by the wrapper.  `raw` is the
`\x7b"_raw": raw_message\x7d` sentinel returned on a JSON decode
error; `msg` is the parsed envelope returned unchanged; `pyError` is
an uncaught `AttributeError` (top-level value is not a dict, so
`message.get` fails, or `params` is a truthy non-dict, so
`params.get` fails inside `_extract_session_id`). -/
inductive IncomingResult where
  | raw (s : String)
  | msg (fields : List (String × Json))
  | pyError
deriving Repr

/-- `ProtocolInterceptor.handle_incoming`, restricted to its effect on
the value returned to the wrapper. -/
def ProtocolInterceptor.handle_incoming (raw_message : String) : IncomingResult :=
  match pyLoads raw_message with
  | none => .raw raw_message
  | some (.obj fields) =>
    match lookupField fields "params" with
    | some v => if pyTruthy v && !v.isObjB then .pyError else .msg fields
    | none => .msg fields
  | some _ => .pyError

/-- What the wrapper's `wrapped_receive` hands to the engine as the
request body: either bytes, or a non-bytes Python object (the code
assigns `forwarded["_raw"]` unchanged when it is not a `str`,
asgi_wrapper.py lines 96–101). -/
inductive ForwardedBody where
  | bytes (s : String)
  | nonBytes
deriving Repr

/-- The request-body path of `ASGITransportWrapper.wrap`
(asgi_wrapper.py lines 87–114): empty bodies skip interception; a
decode-error sentinel keeps the raw string; an interceptor exception
falls back to the original body; otherwise the parsed envelope is
re-encoded with `json.dumps` — unless the client's own envelope
carried a top-level `"_raw"` member, which the wrapper mistakes for
the sentinel. -/
def ASGITransportWrapper.forward_body (original_body : String) : ForwardedBody :=
  if original_body = "" then .bytes original_body
  else
    match ProtocolInterceptor.handle_incoming original_body with
    | .raw s => .bytes s
    | .pyError => .bytes original_body
    | .msg fields =>
      match lookupField fields "_raw" with
      | some (.str r) => .bytes r
      | some _ => .nonBytes
      | none => .bytes (pyDumps (.obj fields))

/-! ## Data model (core/models.py) -/

/-- Session lifecycle status (`SessionStatus`). -/
inductive SessionStatus where
  | INITIALIZING | INITIALIZED | ACTIVE | SUSPENDED | RECOVERING | CLOSED
deriving DecidableEq, Repr

/-- Session record (`MCPSession`).  Wall-clock floats are modeled as
rationals. -/
structure MCPSession where
  id : String
  status : SessionStatus
  client_id : String
  server_id : String
  capabilities : Json
  metadata : Json
  created_at : Rat
  updated_at : Rat
  last_event_id : Option String := none
deriving Repr

/-- Event-sourcing record (`BaseEvent`). -/
structure BaseEvent where
  event_id : String
  session_id : String
  event_type : String
  timestamp : Rat
  payload : Json
deriving Repr

/-! ## In-memory storage adapter (storage/base.py InMemoryStorage) -/

/-- The keys of an `update_session` partial map: each field of
`MCPSession` that the caller may name.  `setattr` semantics assigns
exactly the named fields. -/
structure SessionUpdates where
  id : Option String := none
  status : Option SessionStatus := none
  client_id : Option String := none
  server_id : Option String := none
  capabilities : Option Json := none
  metadata : Option Json := none
  created_at : Option Rat := none
  updated_at : Option Rat := none
  last_event_id : Option (Option String) := none

/-- `for key, value in updates.items(): setattr(session, key, value)`. -/
def applyUpdates (s : MCPSession) (u : SessionUpdates) : MCPSession where
  id := u.id.getD s.id
  status := u.status.getD s.status
  client_id := u.client_id.getD s.client_id
  server_id := u.server_id.getD s.server_id
  capabilities := u.capabilities.getD s.capabilities
  metadata := u.metadata.getD s.metadata
  created_at := u.created_at.getD s.created_at
  updated_at := u.updated_at.getD s.updated_at
  last_event_id := u.last_event_id.getD s.last_event_id

/-- `InMemoryStorage` state: sessions map, per-session event lists,
lock set. -/
structure InMemoryStorage where
  sessions : List (String × MCPSession) := []
  events : List (String × List BaseEvent) := []
  locks : List String := []

/-- `InMemoryStorage.create_session`: upsert by id and ensure the
event bucket exists. -/
def InMemoryStorage.create_session (st : InMemoryStorage) (s : MCPSession) : InMemoryStorage :=
  { st with
    sessions := listUpsert st.sessions s.id s
    events := match listLookup st.events s.id with
      | some _ => st.events
      | none => listUpsert st.events s.id [] }

/-- `InMemoryStorage.get_session`. -/
def InMemoryStorage.get_session (st : InMemoryStorage) (sid : String) : Option MCPSession :=
  listLookup st.sessions sid

/-- `InMemoryStorage.update_session` (storage/base.py lines 65–70):
read-modify-write merging the partial map; no-op when the id is
absent. -/
def InMemoryStorage.update_session (st : InMemoryStorage) (sid : String)
    (updates : SessionUpdates) : InMemoryStorage :=
  match listLookup st.sessions sid with
  | none => st
  | some s => { st with sessions := listUpsert st.sessions sid (applyUpdates s updates) }

/-- `InMemoryStorage.delete_session`. -/
def InMemoryStorage.delete_session (st : InMemoryStorage) (sid : String) : InMemoryStorage :=
  { st with sessions := listErase st.sessions sid, events := listErase st.events sid }

/-! ## Local TTL cache (cache/l1_cache.py TTLCache)

The `OrderedDict` is embedded as a list, front = least recently used,
back = most recently used.  Wall-clock `time.time()` is an explicit
`now` argument. -/

/-- `TTLCache` state. -/
structure TTLCache (α : Type) where
  max_size : Nat := 1000
  ttl : Rat := 60
  store : List (String × Rat × α) := []

/-- `TTLCache.get` (l1_cache.py lines 19–30): a present entry whose
expiry lies strictly in the past is popped and reported as a miss; a
live hit is moved to the most-recently-used end. -/
def TTLCache.get {α : Type} (c : TTLCache α) (key : String) (now : Rat) :
    Option α × TTLCache α :=
  match listLookup c.store key with
  | none => (none, c)
  | some (expires_at, value) =>
    if expires_at < now then (none, { c with store := listErase c.store key })
    else (some value, { c with store := listErase c.store key ++ [(key, expires_at, value)] })

/-- `TTLCache.set` (l1_cache.py lines 32–39): upsert with expiry
`now + ttl`, move to the most-recently-used end, then evict the
least-recently-used entry if the size exceeds `max_size`. -/
def TTLCache.set {α : Type} (c : TTLCache α) (key : String) (value : α) (now : Rat)
    (ttl_seconds : Option Rat := none) : TTLCache α :=
  let expires_at := now + ttl_seconds.getD c.ttl
  let st1 := listErase c.store key ++ [(key, expires_at, value)]
  { c with store := if c.max_size < st1.length then st1.tail else st1 }

/-- `TTLCache.delete`. -/
def TTLCache.del {α : Type} (c : TTLCache α) (key : String) : TTLCache α :=
  { c with store := listErase c.store key }

/-- Insert a sequence of keys (same value and time) one `set` at a
time. -/
def TTLCache.setMany {α : Type} (c : TTLCache α) (ks : List String) (value : α)
    (now : Rat) : TTLCache α :=
  ks.foldl (fun c k => c.set k value now) c

/-! ## Resilience primitives (utils/resilience.py) -/

/-- `CircuitBreakerConfig`. -/
structure CircuitBreakerConfig where
  failure_threshold : Nat := 5
  reset_timeout_seconds : Rat := 30

/-- `CircuitState`: `closed` / `open` / `half_open` (the Lean name
`opened` stands for the source's `OPEN`). -/
inductive CircuitState where
  | closed | opened | half_open
deriving DecidableEq, Repr

/-- `CircuitBreaker` state. -/
structure CircuitBreaker where
  config : CircuitBreakerConfig
  state : CircuitState := .closed
  failures : Nat := 0
  opened_at : Rat := 0

/-- `CircuitBreaker._can_attempt` (resilience.py lines 30–40),
returning the decision and the possibly advanced state (OPEN flips to
HALF_OPEN once `reset_timeout` has elapsed). -/
def CircuitBreaker.can_attempt (b : CircuitBreaker) (now : Rat) : Bool × CircuitBreaker :=
  match b.state with
  | .closed => (true, b)
  | .opened =>
    if b.config.reset_timeout_seconds ≤ now - b.opened_at then
      (true, { b with state := .half_open })
    else (false, b)
  | .half_open => (true, b)

/-- `CircuitBreaker._on_success`. -/
def CircuitBreaker.on_success (b : CircuitBreaker) : CircuitBreaker :=
  { b with state := .closed, failures := 0 }

/-- `CircuitBreaker._on_failure`. -/
def CircuitBreaker.on_failure (b : CircuitBreaker) (now : Rat) : CircuitBreaker :=
  let f := b.failures + 1
  if b.config.failure_threshold ≤ f then
    { b with failures := f, state := .opened, opened_at := now }
  else { b with failures := f }

/-- Result of `CircuitBreaker.run`: the value, the re-raised
exception from the wrapped call, or the distinguished
`RuntimeError("circuit_open")`. -/
inductive BreakerResult (ε α : Type) where
  | ok (a : α)
  | err (e : ε)
  | circuit_open
deriving DecidableEq, Repr

/-- `CircuitBreaker.run` (resilience.py lines 52–62).  `res` is the
outcome the wrapped call would produce if attempted; it is consulted
only when the breaker admits the attempt. -/
def CircuitBreaker.run {ε α : Type} (b : CircuitBreaker) (now : Rat) (res : Except ε α) :
    BreakerResult ε α × CircuitBreaker :=
  match b.can_attempt now with
  | (false, b1) => (.circuit_open, b1)
  | (true, b1) =>
    match res with
    | .ok v => (.ok v, b1.on_success)
    | .error e => (.err e, b1.on_failure now)

/-- Run a sequence of calls that all fail, at the given times: the
breaker observes one attempted failure per element (used to trace the
CLOSED-state failure count). -/
def CircuitBreaker.runFailures (b : CircuitBreaker) (ts : List Rat) : CircuitBreaker :=
  ts.foldl (fun b t => (b.run t (Except.error () : Except Unit Unit)).2) b

/-- The default backoff sequence (`[100, 500, 2000]` ms). -/
def defaultBackoff : List Nat := [100, 500, 2000]

/-- The loop of `with_retries` (resilience.py lines 72–80): `i` is
the 0-based index of the current attempt, the second argument the
number of attempts left, `results i` the outcome of the i-th attempt.
Returns the final outcome and the backoff waits actually slept, in
order. -/
def retryGo {ε α : Type} (results : Nat → Except ε α) (backoff : List Nat) :
    Nat → Nat → Except ε α × List Nat
  | i, 0 => (results i, [])
  | i, 1 => (results i, [])
  | i, n + 2 =>
    match results i with
    | .ok v => (.ok v, [])
    | .error _ =>
      let d := backoff.getD (min i (backoff.length - 1)) 0
      let (r, ws) := retryGo results backoff (i + 1) (n + 1)
      (r, d :: ws)

/-- `with_retries` (resilience.py lines 65–82).  A falsy `backoff_ms`
(`None` or the empty list) selects the default sequence.  `none` is
returned exactly when `attempts = 0`, where the Python code trips its
`assert last_exc is not None`. -/
def with_retries {ε α : Type} (results : Nat → Except ε α) (attempts : Nat)
    (backoff_ms : Option (List Nat)) : Option (Except ε α × List Nat) :=
  let seq := match backoff_ms with
    | none => defaultBackoff
    | some l => if l = [] then defaultBackoff else l
  if attempts = 0 then none else some (retryGo results seq 0 attempts)

/-! ## Session manager read path (core/session_manager.py) -/

/-- Everything observable about one `SessionManager.get` call. -/
structure SessionManagerGetResult where
  result : BreakerResult Unit (Option MCPSession)
  cache : Option (TTLCache MCPSession)
  breaker : CircuitBreaker
  /-- how many times `storage.get_session` was invoked -/
  storage_attempts : Nat

/-- `SessionManager.get` (session_manager.py lines 45–58): consult the
local cache first when enabled; on a miss run the storage fetch under
the breaker and the retry wrapper; populate the cache only with a
non-`None` result.  `fetch i` is the outcome of the i-th storage
attempt; `now` stands for `time.time()` during this call. -/
def SessionManager.get (cache : Option (TTLCache MCPSession)) (breaker : CircuitBreaker)
    (fetch : Nat → Except Unit (Option MCPSession)) (retry_attempts : Nat)
    (retry_backoff_ms : List Nat) (sid : String) (now : Rat) : SessionManagerGetResult :=
  let cacheStep : Option MCPSession × Option (TTLCache MCPSession) :=
    match cache with
    | some c =>
      let (hit, c1) := c.get sid now
      (hit, some c1)
    | none => (none, none)
  match cacheStep with
  | (some v, c1) => ⟨.ok (some v), c1, breaker, 0⟩
  | (none, c1) =>
    let inner := (with_retries fetch retry_attempts (some retry_backoff_ms)).getD
      (.error (), [])
    let (res, breaker1) := breaker.run now inner.1
    let attempts := if (breaker.can_attempt now).1 then inner.2.length + 1 else 0
    let c2 :=
      match res, c1 with
      | .ok (some s), some c => some (c.set sid s now)
      | _, _ => c1
    ⟨res, c2, breaker1, attempts⟩

/-! ## Protocol interceptor outgoing path (core/interceptor.py)

`handle_outgoing` mutates session state only through the session
manager; against the in-memory adapter with a closed breaker those
calls reduce to map operations on the session registry, which is how
they are embedded here.  `now` stands for `time.time()` at record
creation. -/

/-- The context dict keys the interceptor reads in `handle_outgoing`. -/
structure InterceptorContext where
  /-- `context["_mcp_db_last_method"]` -/
  last_method : Option String := none
  /-- `context["_mcp_db_init_params"]` (a dict or absent) -/
  init_params : Option (List (String × Json)) := none
  /-- `context["server_id"]` -/
  server_id : Option Json := none

/-- Python `str()` on the values that reach it here: strings pass
through, `None` prints `None`; renderings of other values are
abbreviated to `json.dumps` form (no claim observes them). -/
def pyStrOfJson : Json → String
  | .str s => s
  | .null => "None"
  | .bool true => "True"
  | .bool false => "False"
  | .num n => (intChars n).asString
  | .arr l => pyDumps (.arr l)
  | .obj l => pyDumps (.obj l)

/-- `str((init_params or \x7b\x7d).get("clientInfo", \x7b\x7d).get("name", "unknown"))`
(interceptor.py lines 82, 96). -/
def extractClientId (init_params : Option (List (String × Json))) : String :=
  let ci := match init_params with
    | some fs => (lookupField fs "clientInfo").getD (.obj [])
    | none => .obj []
  match ci with
  | .obj cfs => pyStrOfJson ((lookupField cfs "name").getD (.str "unknown"))
  | _ => pyStrOfJson (.str "unknown")

/-- `(init_params or \x7b\x7d).get("capabilities", \x7b\x7d)`
(interceptor.py lines 84, 98). -/
def extractCapabilities (init_params : Option (List (String × Json))) : Json :=
  match init_params with
  | some fs => (lookupField fs "capabilities").getD (.obj [])
  | none => .obj []

/-- `str(context.get("server_id") if context else "unknown")`
(interceptor.py lines 83, 97). -/
def extractServerId (ctx : InterceptorContext) : String :=
  pyStrOfJson (ctx.server_id.getD .null)

/-- The record built on the fallback branch of `handle_outgoing`
(interceptor.py lines 79–86): status INITIALIZING, metadata tagged
`from: interceptor, created_fallback: true`. -/
def mkFallbackSession (sid : String) (ctx : InterceptorContext) (now : Rat) : MCPSession where
  id := sid
  status := .INITIALIZING
  client_id := extractClientId ctx.init_params
  server_id := extractServerId ctx
  capabilities := extractCapabilities ctx.init_params
  metadata := .obj [("from", .str "interceptor"), ("created_fallback", .bool true)]
  created_at := now
  updated_at := now
  last_event_id := none

/-- The record built on the initialize-response branch of
`handle_outgoing` (interceptor.py lines 93–100): status INITIALIZING,
metadata tagged `from: interceptor`. -/
def mkInitSession (sid : String) (ctx : InterceptorContext) (now : Rat) : MCPSession where
  id := sid
  status := .INITIALIZING
  client_id := extractClientId ctx.init_params
  server_id := extractServerId ctx
  capabilities := extractCapabilities ctx.init_params
  metadata := .obj [("from", .str "interceptor")]
  created_at := now
  updated_at := now
  last_event_id := none

/-- `ProtocolInterceptor.handle_outgoing` (interceptor.py lines
71–109), restricted to its effect on the session registry.  The
response is the parsed dict handed over by the wrapper. -/
def ProtocolInterceptor.handle_outgoing (sessions : List (String × MCPSession))
    (session_id : String) (response : List (String × Json)) (ctx : InterceptorContext)
    (now : Rat) : List (String × MCPSession) :=
  let existing := if session_id ≠ "" then listLookup sessions session_id else none
  let sessions1 :=
    if existing.isNone && decide (session_id ≠ "") then
      listUpsert sessions session_id (mkFallbackSession session_id ctx now)
    else sessions
  let sessions2 :=
    if ctx.last_method = some "initialize" then
      listUpsert sessions1 session_id (mkInitSession session_id ctx now)
    else sessions1
  if lookupField response "method" = some (.str "server/disconnect") then
    match listLookup sessions2 session_id with
    | none => sessions2
    | some s =>
      listUpsert sessions2 session_id { s with status := .CLOSED }
  else sessions2

/-! ## In-memory event store (event/inmemory.py) -/

/-- `EventEntry`; the message is the opaque JSON-RPC envelope. -/
structure EventEntry where
  event_id : String
  stream_id : String
  message : String
deriving DecidableEq, Repr

/-- `InMemoryEventStore` state: per-stream deques (front = oldest)
and the global event-id index. -/
structure InMemoryEventStore where
  max_events_per_stream : Nat := 100
  streams : List (String × List EventEntry) := []
  event_index : List (String × EventEntry) := []
deriving Repr

/-- `InMemoryEventStore.store_event` (inmemory.py lines 28–43).
`new_uuid` is the value drawn from `uuid4()` for this append: the
draw is an external effect, so it enters as a parameter.  At capacity
the deque drops its oldest entry on append, whose index entry the
code pops preemptively. -/
def InMemoryEventStore.store_event (st : InMemoryEventStore)
    (stream_id message new_uuid : String) : InMemoryEventStore × String :=
  let entry : EventEntry := ⟨new_uuid, stream_id, message⟩
  let cur := (listLookup st.streams stream_id).getD []
  let index1 := match cur with
    | [] => st.event_index
    | oldest :: _ =>
      if cur.length = st.max_events_per_stream then
        listErase st.event_index oldest.event_id
      else st.event_index
  let cur1 := if cur.length < st.max_events_per_stream then cur ++ [entry]
    else (cur ++ [entry]).drop (cur.length + 1 - st.max_events_per_stream)
  ({ st with
      streams := listUpsert st.streams stream_id cur1
      event_index := listUpsert index1 new_uuid entry }, new_uuid)

/-- The loop of `replay_events_after` (inmemory.py lines 56–61): walk
the deque; once the entry carrying `last` has been seen, every later
entry is delivered to the callback as `(message, event_id)`. -/
def deliverAfter : List EventEntry → String → Bool → List (String × String)
  | [], _, _ => []
  | e :: t, last, found =>
    if found then (e.message, e.event_id) :: deliverAfter t last true
    else if e.event_id = last then deliverAfter t last true
    else deliverAfter t last false

/-- `InMemoryEventStore.replay_events_after` (inmemory.py lines
45–63): the returned list holds the callback invocations in order. -/
def InMemoryEventStore.replay_events_after (st : InMemoryEventStore)
    (last_event_id : String) : Option String × List (String × String) :=
  match listLookup st.event_index last_event_id with
  | none => (none, [])
  | some entry =>
    match listLookup st.streams entry.stream_id with
    | none => (some entry.stream_id, [])
    | some evs =>
      if evs = [] then (some entry.stream_id, [])
      else (some entry.stream_id, deliverAfter evs last_event_id false)

/-- One `store_event` call of an execution: target stream, message,
and the uuid drawn for it. -/
structure AppendOp where
  stream : String
  message : String
  uuid : String
deriving DecidableEq, Repr

/-- Execute a sequence of `store_event` calls against a fresh store
with per-stream capacity `m`. -/
def runAppends (m : Nat) (ops : List AppendOp) : InMemoryEventStore :=
  ops.foldl (fun st op => (st.store_event op.stream op.message op.uuid).1)
    { max_events_per_stream := m, streams := [], event_index := [] }

/-- The entry one append op creates. -/
def AppendOp.entry (op : AppendOp) : EventEntry := (EventEntry.mk op.uuid op.stream op.message)

/-- Every entry ever appended to stream `σ` by the execution, in
append order. -/
def histEntries (ops : List AppendOp) (σ : String) : List EventEntry :=
  (ops.filter fun op => op.stream = σ).map AppendOp.entry

/-- The last `m` elements of a list: what a deque with `maxlen = m`
retains. -/
def lastN {α : Type} (m : Nat) (l : List α) : List α := l.drop (l.length - m)

/-! ## Admission controller (core/admission.py) -/

/-- The Python exception classes the construction handlers
distinguish: `TypeError` (caught at the first fallback) versus
everything else. -/
inductive PyExcKind where
  | typeError
  | otherError
deriving DecidableEq, Repr

/-- The transport-construction section of `ensure_session_transport`
(admission.py lines 73–91): try the full keyword form; on `TypeError`
try the alternate keyword form; if that raises anything, call the
minimal constructor with no handler around it.  The three oracle
arguments are the outcomes of the three possible constructor calls. -/
def StreamableHTTPAdmissionController.construct_transport
    (ctor_full ctor_alt ctor_minimal : Except PyExcKind Unit) : Except PyExcKind Unit :=
  match ctor_full with
  | .ok t => .ok t
  | .error e =>
    if e = .typeError then
      match ctor_alt with
      | .ok t => .ok t
      | .error _ => ctor_minimal
    else .error e

/-- `ensure_session_transport` (admission.py lines 63–136).  `ok b`
means the call returned normally with `b` recording whether a
transport was registered; `error e` means the exception `e` escaped
to the caller.  Registration and task-group startup (lines 94–136)
swallow every exception, so only construction can raise. -/
def StreamableHTTPAdmissionController.ensure_session_transport
    (has_session : Bool) (ctor_full ctor_alt ctor_minimal : Except PyExcKind Unit) :
    Except PyExcKind Bool :=
  if has_session then .ok false
  else
    match StreamableHTTPAdmissionController.construct_transport ctor_full ctor_alt ctor_minimal with
    | .error e => .error e
    | .ok _ => .ok true

/-! # Theorems -/

/-! ## Generic map lemmas -/

theorem listLookup_upsert_self {α : Type} (l : List (String × α)) (k : String) (v : α) :
    listLookup (listUpsert l k v) k = some v := by
  induction l with
  | nil => simp [listUpsert, listLookup]
  | cons p t ih =>
    obtain ⟨k2, v2⟩ := p
    by_cases h : k2 = k
    · subst h; simp [listUpsert, listLookup]
    · simp [listUpsert, listLookup, h, ih]

theorem listLookup_upsert_ne {α : Type} (l : List (String × α)) (k k2 : String) (v : α)
    (h : k2 ≠ k) : listLookup (listUpsert l k v) k2 = listLookup l k2 := by
  induction l with
  | nil =>
    simp only [listUpsert, listLookup]
    rw [if_neg (fun hh : k = k2 => h hh.symm)]
  | cons p t ih =>
    obtain ⟨k3, v3⟩ := p
    by_cases h3 : k3 = k
    · subst h3
      have hne : ¬ (k3 = k2) := fun hh => h hh.symm
      simp [listUpsert, listLookup, hne]
    · simp only [listUpsert, if_neg h3, listLookup]
      by_cases h32 : k3 = k2
      · rw [if_pos h32, if_pos h32]
      · rw [if_neg h32, if_neg h32, ih]

theorem listLookup_erase_ne {α : Type} (l : List (String × α)) (k k2 : String)
    (h : k2 ≠ k) : listLookup (listErase l k) k2 = listLookup l k2 := by
  induction l with
  | nil => simp [listErase]
  | cons p t ih =>
    obtain ⟨k3, v3⟩ := p
    by_cases h3 : k3 = k
    · subst h3
      have hne : ¬ (k3 = k2) := fun hh => h hh.symm
      simp [listErase, listLookup, hne]
    · simp only [listErase, if_neg h3, listLookup]
      by_cases h32 : k3 = k2
      · rw [if_pos h32, if_pos h32]
      · rw [if_neg h32, if_neg h32, ih]

theorem listErase_of_not_mem {α : Type} (l : List (String × α)) (k : String)
    (h : k ∉ l.map Prod.fst) : listErase l k = l := by
  induction l with
  | nil => simp [listErase]
  | cons p t ih =>
    obtain ⟨k2, v⟩ := p
    rw [List.map_cons, List.mem_cons] at h
    push_neg at h
    simp [listErase, ih h.2]
    exact fun hh => h.1 hh.symm

theorem listLookup_of_not_mem {α : Type} (l : List (String × α)) (k : String)
    (h : k ∉ l.map Prod.fst) : listLookup l k = none := by
  induction l with
  | nil => simp [listLookup]
  | cons p t ih =>
    obtain ⟨k2, v⟩ := p
    rw [List.map_cons, List.mem_cons] at h
    push_neg at h
    simp [listLookup, ih h.2]
    exact fun hh => h.1 hh.symm

theorem listLookup_append_right {α : Type} (l1 l2 : List (String × α)) (k : String)
    (h : k ∉ l1.map Prod.fst) : listLookup (l1 ++ l2) k = listLookup l2 k := by
  induction l1 with
  | nil => simp
  | cons p t ih =>
    obtain ⟨k2, v⟩ := p
    rw [List.map_cons, List.mem_cons] at h
    push_neg at h
    simp [listLookup, ih h.2]
    intro hh
    exact absurd hh.symm h.1

/-! ## Circuit breaker (C5) -/

/-- Failure trace from a CLOSED breaker: while the accumulated count
stays below the threshold the breaker stays CLOSED; reaching the
threshold opens it at the time of the last failure. -/
theorem runFailures_closed_trace (cfg : CircuitBreakerConfig) :
    ∀ (ts : List Rat) (k : Nat) (a : Rat), k + ts.length ≤ cfg.failure_threshold →
      (CircuitBreaker.runFailures ⟨cfg, .closed, k, a⟩ ts).config = cfg ∧
      (CircuitBreaker.runFailures ⟨cfg, .closed, k, a⟩ ts).failures = k + ts.length ∧
      (k + ts.length < cfg.failure_threshold →
        CircuitBreaker.runFailures ⟨cfg, .closed, k, a⟩ ts
          = ⟨cfg, .closed, k + ts.length, a⟩) ∧
      (∀ tlast, ts.getLast? = some tlast → k + ts.length = cfg.failure_threshold →
        CircuitBreaker.runFailures ⟨cfg, .closed, k, a⟩ ts
          = ⟨cfg, .opened, cfg.failure_threshold, tlast⟩) := by
  intro ts
  induction ts with
  | nil =>
    intro k a hle
    refine ⟨rfl, by simp [CircuitBreaker.runFailures], ?_, ?_⟩
    · intro _; simp [CircuitBreaker.runFailures]
    · intro t h; simp at h
  | cons t rest ih =>
    intro k a hle
    have hstep : (CircuitBreaker.run ⟨cfg, .closed, k, a⟩ t
        (Except.error () : Except Unit Unit)).2
        = CircuitBreaker.on_failure ⟨cfg, .closed, k, a⟩ t := by
      simp [CircuitBreaker.run, CircuitBreaker.can_attempt]
    by_cases hopen : cfg.failure_threshold ≤ k + 1
    · -- the first failure of this trace reaches the threshold
      have hlen : rest.length = 0 := by
        simp at hle; omega
      have hrest : rest = [] := List.length_eq_zero.mp hlen
      subst hrest
      have hthr : cfg.failure_threshold = k + 1 := by
        simp at hle; omega
      have hb1 : CircuitBreaker.on_failure ⟨cfg, .closed, k, a⟩ t
          = ⟨cfg, .opened, k + 1, t⟩ := by
        simp [CircuitBreaker.on_failure, hopen]
      refine ⟨?_, ?_, ?_, ?_⟩
      · simp [CircuitBreaker.runFailures, hstep, hb1]
      · simp [CircuitBreaker.runFailures, hstep, hb1]
      · intro hlt; simp at hlt; omega
      · intro tlast htl _
        simp at htl
        subst htl
        simp [CircuitBreaker.runFailures, hstep, hb1, hthr]
    · -- still below threshold: one more CLOSED failure and recurse
      push_neg at hopen
      have hnth : ¬ cfg.failure_threshold ≤ k + 1 := by omega
      have hb1 : CircuitBreaker.on_failure ⟨cfg, .closed, k, a⟩ t
          = ⟨cfg, .closed, k + 1, a⟩ := by
        simp [CircuitBreaker.on_failure, hnth]
      have hfold : CircuitBreaker.runFailures ⟨cfg, .closed, k, a⟩ (t :: rest)
          = CircuitBreaker.runFailures ⟨cfg, .closed, k + 1, a⟩ rest := by
        simp [CircuitBreaker.runFailures, hstep, hb1]
      have hle2 : k + 1 + rest.length ≤ cfg.failure_threshold := by
        simp at hle; omega
      obtain ⟨ihc, ihf, ihcl, ihop⟩ := ih (k + 1) a hle2
      refine ⟨by rw [hfold]; exact ihc, ?_, ?_, ?_⟩
      · rw [hfold, ihf]; simp; omega
      · intro hlt
        rw [hfold]
        have := ihcl (by simp at hlt ⊢; omega)
        rw [this]
        simp
        omega
      · intro tlast htl hthr
        have hne : rest ≠ [] := by
          rintro rfl
          simp at hthr; omega
        obtain ⟨r0, rest1, rfl⟩ := List.exists_cons_of_ne_nil hne
        rw [hfold]
        refine ihop tlast ?_ (by simp at hthr ⊢; omega)
        rw [List.getLast?_cons_cons] at htl
        exact htl

/-- C5: the circuit breaker starts CLOSED and opens after exactly
`failure_threshold` consecutive failures of attempted calls (recording
`opened_at` as the time of the opening failure); while OPEN and before
`reset_timeout` has elapsed every call short-circuits with the
distinguished circuit_open error, unattempted and uncounted; once the
timeout has elapsed the next call is attempted in HALF_OPEN, where a
single success resets the failure count and closes the breaker, and a
failure reopens it with `opened_at` refreshed. -/
theorem claim_C5_circuit_breaker (cfg : CircuitBreakerConfig)
    (_hth : 1 ≤ cfg.failure_threshold) :
    (∀ ts : List Rat, ts.length < cfg.failure_threshold →
      CircuitBreaker.runFailures ⟨cfg, .closed, 0, 0⟩ ts
        = ⟨cfg, .closed, ts.length, 0⟩) ∧
    (∀ (ts : List Rat) (tlast : Rat), ts.length = cfg.failure_threshold →
      ts.getLast? = some tlast →
      CircuitBreaker.runFailures ⟨cfg, .closed, 0, 0⟩ ts
        = ⟨cfg, .opened, cfg.failure_threshold, tlast⟩) ∧
    (∀ (b : CircuitBreaker) (now : Rat) (res : Except Unit Unit), b.state = .opened →
      now - b.opened_at < b.config.reset_timeout_seconds →
      b.run now res = (.circuit_open, b)) ∧
    (∀ (b : CircuitBreaker) (now : Rat), b.state = .opened →
      b.config.reset_timeout_seconds ≤ now - b.opened_at →
      b.run now (Except.ok () : Except Unit Unit)
        = (.ok (), { b with state := .closed, failures := 0 })) ∧
    (∀ (b : CircuitBreaker) (now : Rat), b.state = .opened →
      b.config.reset_timeout_seconds ≤ now - b.opened_at →
      b.config.failure_threshold ≤ b.failures + 1 →
      b.run now (Except.error () : Except Unit Unit)
        = (.err (), { b with state := .opened, failures := b.failures + 1,
                             opened_at := now })) ∧
    (∀ (b : CircuitBreaker) (now : Rat), b.state = .half_open →
      b.run now (Except.ok () : Except Unit Unit)
        = (.ok (), { b with state := .closed, failures := 0 })) := by
  refine ⟨?_, ?_, ?_, ?_, ?_, ?_⟩
  · intro ts hlt
    have h := (runFailures_closed_trace cfg ts 0 0 (by omega)).2.2.1 (by omega)
    simpa using h
  · intro ts tlast hlen htl
    exact (runFailures_closed_trace cfg ts 0 0 (by omega)).2.2.2 tlast htl (by omega)
  · intro b now res hst hlt
    obtain ⟨bcfg, st, f, oa⟩ := b
    simp at hst
    subst hst
    simp only [CircuitBreaker.run, CircuitBreaker.can_attempt] at *
    rw [if_neg (by simpa using not_le.mpr hlt)]
  · intro b now hst hle
    obtain ⟨bcfg, st, f, oa⟩ := b
    simp at hst
    subst hst
    simp only [CircuitBreaker.run, CircuitBreaker.can_attempt] at *
    rw [if_pos (by simpa using hle)]
    simp [CircuitBreaker.on_success]
  · intro b now hst hle hf
    obtain ⟨bcfg, st, f, oa⟩ := b
    simp at hst
    subst hst
    simp only [CircuitBreaker.run, CircuitBreaker.can_attempt] at *
    rw [if_pos (by simpa using hle)]
    simp [CircuitBreaker.on_failure, hf]
  · intro b now hst
    obtain ⟨bcfg, st, f, oa⟩ := b
    simp at hst
    subst hst
    simp [CircuitBreaker.run, CircuitBreaker.can_attempt, CircuitBreaker.on_success]

/-- Witness for C5 at the default-like config `⟨2, 30⟩`: two failures
at times 1 and 2 open the breaker with `opened_at = 2`. -/
theorem claim_C5_circuit_breaker_witness :
    1 ≤ (⟨2, 30⟩ : CircuitBreakerConfig).failure_threshold ∧
    CircuitBreaker.runFailures ⟨⟨2, 30⟩, .closed, 0, 0⟩ [1, 2]
      = ⟨⟨2, 30⟩, .opened, 2, 2⟩ :=
  ⟨by decide,
   (claim_C5_circuit_breaker ⟨2, 30⟩ (by decide)).2.1 [1, 2] 2 rfl rfl⟩

/-! ## Retry wrapper (C7) -/

theorem retryGo_all_fail {ε α : Type} (results : Nat → Except ε α) (bs : List Nat) :
    ∀ (n i : Nat), 1 ≤ n → (∀ j, j < n → ∃ e, results (i + j) = .error e) →
      retryGo results bs i n
        = (results (i + n - 1),
           (List.range (n - 1)).map fun j => bs.getD (min (i + j) (bs.length - 1)) 0) := by
  intro n
  induction n with
  | zero => omega
  | succ m ih =>
    intro i _ hfail
    match m with
    | 0 => simp [retryGo]
    | m + 1 =>
      obtain ⟨e, he⟩ := hfail 0 (by omega)
      simp only [Nat.add_zero] at he
      have hrec := ih (i + 1) (by omega) (fun j hj => by
        have := hfail (j + 1) (by omega)
        simpa [Nat.add_assoc, Nat.add_comm 1 j] using this)
      simp only [retryGo, he]
      rw [hrec]
      simp only [Nat.add_sub_cancel, Prod.mk.injEq]
      refine ⟨by congr 1; omega, ?_⟩
      rw [List.range_succ_eq_map]
      simp only [List.map_cons, List.map_map, Nat.add_zero]
      congr 1
      apply List.map_congr_left
      intro j _
      simp only [Function.comp_apply]
      congr 2
      omega

theorem retryGo_first_success {ε α : Type} (results : Nat → Except ε α) (bs : List Nat) :
    ∀ (n i k : Nat) (v : α), k < n → results (i + k) = .ok v →
      (∀ j, j < k → ∃ e, results (i + j) = .error e) →
      retryGo results bs i n
        = (.ok v, (List.range k).map fun j => bs.getD (min (i + j) (bs.length - 1)) 0) := by
  intro n
  induction n with
  | zero => omega
  | succ m ih =>
    intro i k v hk hok hfail
    match m, k with
    | 0, 0 =>
      simp only [Nat.add_zero] at hok
      simp [retryGo, hok]
    | m + 1, 0 =>
      simp only [Nat.add_zero] at hok
      simp [retryGo, hok]
    | m + 1, k + 1 =>
      obtain ⟨e, he⟩ := hfail 0 (by omega)
      simp only [Nat.add_zero] at he
      have hrec := ih (i + 1) k v (by omega)
        (by simpa [Nat.add_assoc, Nat.add_comm 1 k] using hok)
        (fun j hj => by
          have := hfail (j + 1) (by omega)
          simpa [Nat.add_assoc, Nat.add_comm 1 j] using this)
      simp only [retryGo, he]
      rw [hrec]
      rw [List.range_succ_eq_map]
      simp only [List.map_cons, List.map_map]
      congr 2
      apply List.map_congr_left
      intro j _
      simp only [Function.comp_apply]
      congr 2
      omega

/-- C7: `with_retries` attempts the operation up to N times; it
returns the first successful outcome having slept exactly the backoff
entries `b(min(i, len-1))` after each of the preceding failures; after
N failures it raises the exception of the final attempt, with no sleep
after the last failure.  Every raised error is retried alike — the
hypotheses constrain only whether an attempt fails, not how. -/
theorem claim_C7_with_retries {ε α : Type} (results : Nat → Except ε α) (attempts : Nat)
    (bs : List Nat) (ha : 1 ≤ attempts) (hbs : bs ≠ []) :
    ((∀ i, i < attempts → ∃ e, results i = .error e) →
      with_retries results attempts (some bs)
        = some (results (attempts - 1),
            (List.range (attempts - 1)).map fun i => bs.getD (min i (bs.length - 1)) 0)) ∧
    (∀ (k : Nat) (v : α), k < attempts → results k = .ok v →
      (∀ j, j < k → ∃ e, results j = .error e) →
      with_retries results attempts (some bs)
        = some (.ok v, (List.range k).map fun i => bs.getD (min i (bs.length - 1)) 0)) := by
  have hwr : with_retries results attempts (some bs) = some (retryGo results bs 0 attempts) := by
    simp [with_retries, hbs]
    omega
  constructor
  · intro hfail
    rw [hwr, retryGo_all_fail results bs attempts 0 ha (fun j hj => by
      simpa using hfail j hj)]
    simp
  · intro k v hk hok hfail
    rw [hwr, retryGo_first_success results bs attempts 0 k v hk (by simpa using hok)
      (fun j hj => by simpa using hfail j hj)]
    simp

/-- Witness for C7: three attempts with backoff `[10, 20]`; the
second attempt succeeds, so the call returns its value having slept
exactly `[10]`. -/
theorem claim_C7_with_retries_witness :
    (1 ≤ 3 ∧ ([10, 20] : List Nat) ≠ []) ∧
    with_retries (fun i => if i = 1 then (Except.ok 7 : Except Unit Nat) else .error ())
      3 (some [10, 20]) = some (.ok 7, [10]) := by
  refine ⟨⟨by decide, by decide⟩, ?_⟩
  have h := (claim_C7_with_retries
    (fun i => if i = 1 then (Except.ok 7 : Except Unit Nat) else .error ())
    3 [10, 20] (by decide) (by decide)).2 1 7 (by decide) rfl
    (fun j hj => ⟨(), by interval_cases j; rfl⟩)
  rw [h]
  rfl

/-! ## Session store partial update (C8) -/

/-- C8: for a stored id, `update_session(id, Δ)` followed by
`get_session(id)` yields the merge of Δ over the old record — every
field named in Δ takes Δ's value and every unnamed field is unchanged
(spelled out field by field) — and records under other ids are
untouched; for an absent id the whole store state is unchanged. -/
theorem claim_C8_update_session (st : InMemoryStorage) (sid : String) (u : SessionUpdates) :
    (∀ s : MCPSession, listLookup st.sessions sid = some s →
      (st.update_session sid u).get_session sid = some (applyUpdates s u) ∧
      (∀ v, u.id = some v → (applyUpdates s u).id = v) ∧
      (u.id = none → (applyUpdates s u).id = s.id) ∧
      (∀ v, u.status = some v → (applyUpdates s u).status = v) ∧
      (u.status = none → (applyUpdates s u).status = s.status) ∧
      (∀ v, u.client_id = some v → (applyUpdates s u).client_id = v) ∧
      (u.client_id = none → (applyUpdates s u).client_id = s.client_id) ∧
      (∀ v, u.server_id = some v → (applyUpdates s u).server_id = v) ∧
      (u.server_id = none → (applyUpdates s u).server_id = s.server_id) ∧
      (∀ v, u.capabilities = some v → (applyUpdates s u).capabilities = v) ∧
      (u.capabilities = none → (applyUpdates s u).capabilities = s.capabilities) ∧
      (∀ v, u.metadata = some v → (applyUpdates s u).metadata = v) ∧
      (u.metadata = none → (applyUpdates s u).metadata = s.metadata) ∧
      (∀ v, u.created_at = some v → (applyUpdates s u).created_at = v) ∧
      (u.created_at = none → (applyUpdates s u).created_at = s.created_at) ∧
      (∀ v, u.updated_at = some v → (applyUpdates s u).updated_at = v) ∧
      (u.updated_at = none → (applyUpdates s u).updated_at = s.updated_at) ∧
      (∀ v, u.last_event_id = some v → (applyUpdates s u).last_event_id = v) ∧
      (u.last_event_id = none → (applyUpdates s u).last_event_id = s.last_event_id) ∧
      (∀ sid2, sid2 ≠ sid →
        (st.update_session sid u).get_session sid2 = st.get_session sid2)) ∧
    (listLookup st.sessions sid = none → st.update_session sid u = st) := by
  constructor
  · intro s hs
    have hupd : st.update_session sid u
        = { st with sessions := listUpsert st.sessions sid (applyUpdates s u) } := by
      simp [InMemoryStorage.update_session, hs]
    refine ⟨?_, ?_, ?_, ?_, ?_, ?_, ?_, ?_, ?_, ?_, ?_, ?_, ?_, ?_, ?_, ?_, ?_, ?_, ?_, ?_⟩
    · rw [hupd]
      simp [InMemoryStorage.get_session, listLookup_upsert_self]
    all_goals first
      | (intro v hv; simp [applyUpdates, hv])
      | (intro hv; simp [applyUpdates, hv])
      | (intro sid2 hne
         rw [hupd]
         simp only [InMemoryStorage.get_session]
         exact listLookup_upsert_ne st.sessions sid sid2 (applyUpdates s u) hne)
  · intro hnone
    simp [InMemoryStorage.update_session, hnone]

/-- Witness for C8 at a one-record store: updating `status` leaves
the other fields and other ids intact. -/
theorem claim_C8_update_session_witness :
    (listLookup ([("s1", ⟨"s1", .INITIALIZED, "c", "srv", .obj [], .obj [], 0, 0, none⟩)] :
        List (String × MCPSession)) "s1"
      = some ⟨"s1", .INITIALIZED, "c", "srv", .obj [], .obj [], 0, 0, none⟩) ∧
    (InMemoryStorage.update_session ⟨[("s1", ⟨"s1", .INITIALIZED, "c", "srv", .obj [], .obj [], 0, 0, none⟩)], [], []⟩
        "s1" { status := some .ACTIVE }).get_session "s1"
      = some (applyUpdates ⟨"s1", .INITIALIZED, "c", "srv", .obj [], .obj [], 0, 0, none⟩
          { status := some .ACTIVE }) := by
  refine ⟨rfl, ?_⟩
  exact ((claim_C8_update_session
    ⟨[("s1", ⟨"s1", .INITIALIZED, "c", "srv", .obj [], .obj [], 0, 0, none⟩)], [], []⟩
    "s1" { status := some .ACTIVE }).1
    ⟨"s1", .INITIALIZED, "c", "srv", .obj [], .obj [], 0, 0, none⟩ rfl).1

/-! ## Local TTL cache (C9) -/

theorem not_mem_erase_self {α : Type} (l : List (String × α)) (k : String)
    (h : (l.map Prod.fst).Nodup) : k ∉ (listErase l k).map Prod.fst := by
  induction l with
  | nil => simp [listErase]
  | cons p t ih =>
    obtain ⟨k2, v⟩ := p
    rw [List.map_cons, List.nodup_cons] at h
    by_cases h2 : k2 = k
    · subst h2
      simpa [listErase] using h.1
    · simp only [listErase, if_neg h2, List.map_cons, List.mem_cons]
      push_neg
      exact ⟨fun hh => h2 hh.symm, ih h.2⟩

/-- Inserting a run of fresh distinct keys whose total fill reaches
`m + 1` evicts exactly the front entry: no insert overflows except
the last one. -/
theorem setMany_step {α : Type} (v : α) (now ttl : Rat) (m : Nat) :
    ∀ (t : List String) (cur : List (String × Rat × α)),
      (cur.map Prod.fst ++ t).Nodup →
      cur.length + t.length = m + 1 →
      1 ≤ t.length →
      (TTLCache.setMany ⟨m, ttl, cur⟩ t v now).store
        = (cur ++ t.map fun k => (k, now + ttl, v)).tail := by
  intro t
  induction t with
  | nil => intro cur _ hlen h1; simp at h1
  | cons k t2 ih =>
    intro cur hnd hlen _
    have hdisj := (List.nodup_append.mp hnd).2.2
    have hkfresh : k ∉ cur.map Prod.fst :=
      fun hmem => hdisj hmem (List.mem_cons_self k t2)
    have herase : listErase cur k = cur := listErase_of_not_mem cur k hkfresh
    have hfold : TTLCache.setMany ⟨m, ttl, cur⟩ (k :: t2) v now
        = TTLCache.setMany (TTLCache.set ⟨m, ttl, cur⟩ k v now) t2 v now := by
      simp [TTLCache.setMany]
    cases t2 with
    | nil =>
      have hcl : cur.length = m := by simpa using hlen
      have hover : m < (listErase cur k ++ [(k, now + ttl, v)]).length := by
        rw [herase]; simp [hcl]
      rw [hfold]
      simp only [TTLCache.setMany, List.foldl_nil]
      simp [TTLCache.set, herase, hover, hcl]
    | cons k2 t3 =>
      have hunder : ¬ m < cur.length + 1 := by
        simp at hlen
        omega
      have hset : TTLCache.set ⟨m, ttl, cur⟩ k v now
          = ⟨m, ttl, cur ++ [(k, now + ttl, v)]⟩ := by
        simp [TTLCache.set, herase, hunder]
      rw [hfold, hset]
      have hnd2 : ((cur ++ [(k, now + ttl, v)]).map Prod.fst ++ (k2 :: t3)).Nodup := by
        simpa [List.append_assoc] using hnd
      have hlen2 : (cur ++ [(k, now + ttl, v)]).length + (k2 :: t3).length = m + 1 := by
        simp at hlen ⊢
        omega
      rw [ih (cur ++ [(k, now + ttl, v)]) hnd2 hlen2 (by simp)]
      simp [List.append_assoc]

/-- The store produced by `TTLCache.set`, spelled out. -/
theorem TTLCache_set_store {α : Type} (c : TTLCache α) (key : String) (w : α) (now : Rat) :
    (c.set key w now).store =
      if c.max_size < (listErase c.store key ++ [(key, now + c.ttl, w)]).length
      then (listErase c.store key ++ [(key, now + c.ttl, w)]).tail
      else listErase c.store key ++ [(key, now + c.ttl, w)] := rfl

/-- C9: cache behaviour of `TTLCache` with distinct stored keys and
positive capacity.  `get` on an entry whose expiry has passed evicts
it and misses; `get` on a live entry returns the value and promotes
it to most-recently-used; `set` upserts with expiry `now + ttl` and,
exactly when the size exceeds `max_size` after the insert, evicts the
single least-recently-used (front) entry; `max_size + 1` distinct
insertions into an empty cache leave exactly the last `max_size`
keys, the least recently used one having been evicted. -/
theorem claim_C9_ttlcache {α : Type} (c : TTLCache α) (key : String) (now : Rat)
    (hnodup : (c.store.map Prod.fst).Nodup) (hmax : 1 ≤ c.max_size) :
    (∀ (exp : Rat) (v : α), listLookup c.store key = some (exp, v) → exp < now →
      c.get key now = (none, { c with store := listErase c.store key })) ∧
    (∀ (exp : Rat) (v : α), listLookup c.store key = some (exp, v) → now ≤ exp →
      c.get key now
          = (some v, { c with store := listErase c.store key ++ [(key, exp, v)] }) ∧
        ((c.get key now).2.store.getLast? = some (key, exp, v))) ∧
    (∀ w : α, listLookup (c.set key w now).store key = some (now + c.ttl, w)) ∧
    (∀ w : α, (listErase c.store key ++ [(key, now + c.ttl, w)]).length ≤ c.max_size →
      (c.set key w now).store = listErase c.store key ++ [(key, now + c.ttl, w)]) ∧
    (∀ w : α, c.max_size < (listErase c.store key ++ [(key, now + c.ttl, w)]).length →
      (c.set key w now).store = (listErase c.store key ++ [(key, now + c.ttl, w)]).tail) ∧
    (∀ (ks : List String) (w : α), ks.Nodup → ks.length = c.max_size + 1 →
      (TTLCache.setMany ⟨c.max_size, c.ttl, []⟩ ks w now).store
        = ks.tail.map fun k => (k, now + c.ttl, w)) := by
  have hfresh : key ∉ (listErase c.store key).map Prod.fst :=
    not_mem_erase_self c.store key hnodup
  refine ⟨?_, ?_, ?_, ?_, ?_, ?_⟩
  · intro exp v hl hlt
    simp [TTLCache.get, hl, hlt]
  · intro exp v hl hle
    have hget : c.get key now
        = (some v, { c with store := listErase c.store key ++ [(key, exp, v)] }) := by
      simp [TTLCache.get, hl, not_lt.mpr hle]
    refine ⟨hget, ?_⟩
    rw [hget]
    simp
  · intro w
    rw [TTLCache_set_store]
    by_cases hover : c.max_size < (listErase c.store key ++ [(key, now + c.ttl, w)]).length
    · have hlen : 2 ≤ (listErase c.store key ++ [(key, now + c.ttl, w)]).length := by
        omega
      obtain ⟨e0, et, he⟩ : ∃ e0 et, listErase c.store key = e0 :: et := by
        cases herase : listErase c.store key with
        | nil => rw [herase] at hlen; simp at hlen
        | cons e0 et => exact ⟨e0, et, rfl⟩
      rw [if_pos hover, he]
      simp only [List.cons_append, List.tail_cons]
      rw [listLookup_append_right]
      · simp [listLookup]
      · rw [he] at hfresh
        simp only [List.map_cons, List.mem_cons] at hfresh
        push_neg at hfresh
        exact hfresh.2
    · rw [if_neg hover, listLookup_append_right _ _ _ hfresh]
      simp [listLookup]
  · intro w hle
    rw [TTLCache_set_store, if_neg (not_lt.mpr hle)]
  · intro w hover
    rw [TTLCache_set_store, if_pos hover]
  · intro ks w hnd hlen
    have h := setMany_step w now c.ttl c.max_size ks [] (by simpa using hnd)
      (by simpa using hlen) (by omega)
    rw [h]
    simp [List.map_tail]

/-- Witness for C9: a two-entry cache of capacity 2; `get` hits the
live entry `"a"`, and three distinct insertions into an empty
capacity-2 cache evict the first key. -/
theorem claim_C9_ttlcache_witness :
    ((([("a", (10, 1)), ("b", (20, 2))] : List (String × Rat × Nat)).map Prod.fst).Nodup ∧
      1 ≤ 2) ∧
    (TTLCache.get ⟨2, 60, [("a", 10, 1), ("b", 20, 2)]⟩ "a" 5
        = (some 1, ⟨2, 60, [("b", 20, 2), ("a", 10, 1)]⟩)) ∧
    (TTLCache.setMany ⟨2, 60, []⟩ ["x", "y", "z"] 7 0).store
        = [("y", 60, 7), ("z", 60, 7)] := by
  refine ⟨⟨by decide, by decide⟩, ?_, ?_⟩
  · have h := ((claim_C9_ttlcache (⟨2, 60, [("a", 10, 1), ("b", 20, 2)]⟩ : TTLCache Nat)
      "a" 5 (by decide) (by decide)).2.1 10 1 rfl (by norm_num)).1
    simpa using h
  · have h := (claim_C9_ttlcache (⟨2, 60, []⟩ : TTLCache Nat) "q" 0 (by decide)
      (by decide)).2.2.2.2.2 ["x", "y", "z"] 7 (by decide) rfl
    simpa using h

/-! ## Session manager read path (C10) -/

/-- C10: when the local cache holds an unexpired record for the id,
`SessionManager.get` returns it with zero storage attempts and an
untouched breaker — for every breaker state, so the call cannot
surface circuit_open even while the breaker is OPEN; and on the fetch
path the cache is written only for an `ok (some _)` outcome: a miss
or error leaves the post-lookup cache as is, so a `None` fetch is
never cached. -/
theorem claim_C10_session_manager_get (c : TTLCache MCPSession)
    (breaker : CircuitBreaker) (fetch : Nat → Except Unit (Option MCPSession))
    (ra : Nat) (bms : List Nat) (sid : String) (now : Rat) :
    (∀ (exp : Rat) (v : MCPSession), listLookup c.store sid = some (exp, v) → now ≤ exp →
      SessionManager.get (some c) breaker fetch ra bms sid now
        = ⟨.ok (some v),
           some { c with store := listErase c.store sid ++ [(sid, exp, v)] },
           breaker, 0⟩) ∧
    (∀ c1 : TTLCache MCPSession, c.get sid now = (none, c1) →
      (¬ ∃ s, (SessionManager.get (some c) breaker fetch ra bms sid now).result
          = .ok (some s)) →
      (SessionManager.get (some c) breaker fetch ra bms sid now).cache = some c1) ∧
    (∀ (c1 : TTLCache MCPSession) (s : MCPSession), c.get sid now = (none, c1) →
      (SessionManager.get (some c) breaker fetch ra bms sid now).result = .ok (some s) →
      (SessionManager.get (some c) breaker fetch ra bms sid now).cache
        = some (c1.set sid s now)) := by
  refine ⟨?_, ?_, ?_⟩
  · intro exp v hl hle
    simp [SessionManager.get, TTLCache.get, hl, not_lt.mpr hle]
  · intro c1 hmiss hnot
    rcases hr : (breaker.run now
        ((with_retries fetch ra (some bms)).getD (.error (), [])).1).1 with a | e | _
    · rcases a with _ | s
      · simp [SessionManager.get, hmiss, hr]
      · exact absurd ⟨s, by simp [SessionManager.get, hmiss, hr]⟩ hnot
    · simp [SessionManager.get, hmiss, hr]
    · simp [SessionManager.get, hmiss, hr]
  · intro c1 s hmiss hok
    rcases hr : (breaker.run now
        ((with_retries fetch ra (some bms)).getD (.error (), [])).1).1 with a | e | _
    · rcases a with _ | s2
      · simp [SessionManager.get, hmiss, hr] at hok
      · have hs : s2 = s := by
          simpa [SessionManager.get, hmiss, hr] using hok
        subst hs
        simp [SessionManager.get, hmiss, hr]
    · simp [SessionManager.get, hmiss, hr] at hok
    · simp [SessionManager.get, hmiss, hr] at hok

/-- Witness for C10: a cache hit on `"s"` with an OPEN breaker still
returns the cached record with zero storage attempts and the breaker
untouched. -/
theorem claim_C10_session_manager_get_witness :
    (listLookup ([("s", ((100 : Rat), (⟨"s", .ACTIVE, "c", "srv", .obj [], .obj [], 0, 0,
        none⟩ : MCPSession)))] : List (String × Rat × MCPSession)) "s"
      = some (100, ⟨"s", .ACTIVE, "c", "srv", .obj [], .obj [], 0, 0, none⟩) ∧
      (50 : Rat) ≤ 100) ∧
    SessionManager.get
      (some ⟨1000, 60, [("s", 100, ⟨"s", .ACTIVE, "c", "srv", .obj [], .obj [], 0, 0, none⟩)]⟩)
      ⟨⟨5, 30⟩, .opened, 5, 49⟩ (fun _ => .error ()) 3 [100, 500, 2000] "s" 50
      = ⟨.ok (some ⟨"s", .ACTIVE, "c", "srv", .obj [], .obj [], 0, 0, none⟩),
         some ⟨1000, 60, [("s", 100, ⟨"s", .ACTIVE, "c", "srv", .obj [], .obj [], 0, 0, none⟩)]⟩,
         ⟨⟨5, 30⟩, .opened, 5, 49⟩, 0⟩ := by
  refine ⟨⟨rfl, by norm_num⟩, ?_⟩
  have h := (claim_C10_session_manager_get
    ⟨1000, 60, [("s", 100, ⟨"s", .ACTIVE, "c", "srv", .obj [], .obj [], 0, 0, none⟩)]⟩
    ⟨⟨5, 30⟩, .opened, 5, 49⟩ (fun _ => .error ()) 3 [100, 500, 2000] "s" 50).1
    100 ⟨"s", .ACTIVE, "c", "srv", .obj [], .obj [], 0, 0, none⟩ rfl (by norm_num)
  simpa using h

/-! ## Admission controller (C6: the code can propagate construction errors) -/

/-- C6 evidence: a non-`TypeError` from the first constructor attempt
escapes `ensure_session_transport` (only `TypeError` is caught), and
so does any exception from the unguarded minimal-constructor
fallback; the handled paths do return silently, and a present session
short-circuits before construction. -/
theorem claim_C6_admission_error_propagates :
    StreamableHTTPAdmissionController.ensure_session_transport false
      (.error .otherError) (.ok ()) (.ok ()) = .error .otherError ∧
    StreamableHTTPAdmissionController.ensure_session_transport false
      (.error .typeError) (.error .otherError) (.error .otherError) = .error .otherError ∧
    StreamableHTTPAdmissionController.ensure_session_transport false
      (.error .typeError) (.error .otherError) (.ok ()) = .ok true ∧
    StreamableHTTPAdmissionController.ensure_session_transport false
      (.error .typeError) (.ok ()) (.error .otherError) = .ok true ∧
    StreamableHTTPAdmissionController.ensure_session_transport true
      (.error .otherError) (.error .otherError) (.error .otherError) = .ok false :=
  ⟨rfl, rfl, rfl, rfl, rfl⟩

/-! ## Interceptor outgoing path (C2: sessions are created INITIALIZING,
not INITIALIZED) -/

/-- C2 evidence: after an initialize response for a fresh session id,
`handle_outgoing` stores a record whose `client_id`, `server_id` and
`capabilities` come from the initialize params and context exactly as
the claim says — but whose status is `INITIALIZING`, not the
`INITIALIZED` the spec (and the repository's own unit test
`test_handle_outgoing_after_initialize`) requires. -/
theorem claim_C2_initialize_status_bug :
    listLookup
      (ProtocolInterceptor.handle_outgoing [] "new-sess"
        [("jsonrpc", .str "2.0"), ("id", .num 1), ("result", .obj [])]
        { last_method := some "initialize"
          init_params := some [("clientInfo", .obj [("name", .str "test-client")]),
                               ("capabilities", .obj [("tools", .bool true)])]
          server_id := some (.str "server-1") } 0)
      "new-sess"
      = some ⟨"new-sess", .INITIALIZING, "test-client", "server-1",
              .obj [("tools", .bool true)], .obj [("from", .str "interceptor")], 0, 0, none⟩ ∧
    SessionStatus.INITIALIZING ≠ SessionStatus.INITIALIZED := by
  constructor
  · rfl
  · decide

/-! ## In-memory event store (C3, C4) -/

theorem length_lastN {α : Type} (m : Nat) (l : List α) :
    (lastN m l).length = min m l.length := by
  simp [lastN]
  omega

theorem lastN_append_one {α : Type} (m : Nat) (l : List α) (e : α) :
    lastN m (l ++ [e])
      = if (lastN m l).length < m then lastN m l ++ [e]
        else (lastN m l ++ [e]).drop ((lastN m l).length + 1 - m) := by
  by_cases h : l.length < m
  · have hc : (lastN m l).length < m := by rw [length_lastN]; omega
    rw [if_pos hc]
    have h1 : l.length - m = 0 := by omega
    have h2 : l.length + 1 - m = 0 := by omega
    simp [lastN, h1, h2]
  · have hc : ¬ (lastN m l).length < m := by rw [length_lastN]; omega
    rw [if_neg hc]
    have hlen : (lastN m l).length = m := by rw [length_lastN]; omega
    rw [hlen]
    have hm1 : m + 1 - m = 1 := by omega
    rw [hm1]
    rw [lastN, lastN]
    rw [← List.drop_append_of_le_length (by omega : l.length - m ≤ l.length)]
    rw [List.drop_drop]
    congr 1
    simp
    omega

theorem mem_lastN_last {α : Type} (m : Nat) (hm : 1 ≤ m) (l : List α) (x : α) :
    x ∈ lastN m (l ++ [x]) := by
  rw [lastN, List.length_append]
  simp only [List.length_cons, List.length_nil]
  rw [List.drop_append_of_le_length (by omega)]
  simp

theorem deliverAfter_found (l : List EventEntry) (X : String) :
    deliverAfter l X true = l.map fun e => (e.message, e.event_id) := by
  induction l with
  | nil => simp [deliverAfter]
  | cons e t ih => simp [deliverAfter, ih]

theorem deliverAfter_not_mem (l l2 : List EventEntry) (X : String)
    (h : ∀ e ∈ l, e.event_id ≠ X) :
    deliverAfter (l ++ l2) X false = deliverAfter l2 X false := by
  induction l with
  | nil => simp
  | cons e t ih =>
    have he := h e (by simp)
    simp only [List.cons_append, deliverAfter, if_neg he, Bool.false_eq_true, if_false]
    exact ih fun e2 h2 => h e2 (by simp [h2])

theorem deliverAfter_start (x : EventEntry) (B : List EventEntry) (X : String)
    (hx : x.event_id = X) :
    deliverAfter (x :: B) X false = B.map fun e => (e.message, e.event_id) := by
  simp [deliverAfter, hx, deliverAfter_found]

theorem histEntries_append_one (ops : List AppendOp) (op : AppendOp) (σ : String) :
    histEntries (ops ++ [op]) σ
      = histEntries ops σ ++ if op.stream = σ then [op.entry] else [] := by
  simp only [histEntries, List.filter_append, List.map_append]
  by_cases h : op.stream = σ <;> simp [h]

theorem histEntries_mem (ops : List AppendOp) (σ : String) (e : EventEntry)
    (h : e ∈ histEntries ops σ) : ∃ op ∈ ops, AppendOp.entry op = e ∧ op.stream = σ := by
  simp only [histEntries, List.mem_map, List.mem_filter] at h
  obtain ⟨op, ⟨hmem, hs⟩, he⟩ := h
  exact ⟨op, hmem, he, by simpa using hs⟩

theorem histEntries_stream (ops : List AppendOp) (σ : String) (e : EventEntry)
    (h : e ∈ histEntries ops σ) : e.stream_id = σ := by
  obtain ⟨op, _, he, hs⟩ := histEntries_mem ops σ e h
  rw [← he]
  exact hs

theorem histEntries_ids_sublist (ops : List AppendOp) (σ : String) :
    List.Sublist ((histEntries ops σ).map EventEntry.event_id) (ops.map AppendOp.uuid) := by
  rw [histEntries, List.map_map]
  exact List.Sublist.map _ (List.filter_sublist _)

theorem histEntries_id_mem (ops : List AppendOp) (σ : String) (e : EventEntry)
    (h : e ∈ histEntries ops σ) : e.event_id ∈ ops.map AppendOp.uuid := by
  have : e.event_id ∈ (histEntries ops σ).map EventEntry.event_id :=
    List.mem_map.mpr ⟨e, h, rfl⟩
  exact (histEntries_ids_sublist ops σ).subset this

theorem histEntries_inj (ops : List AppendOp) (hnd : (ops.map AppendOp.uuid).Nodup)
    (σ1 σ2 : String) (e1 e2 : EventEntry) (h1 : e1 ∈ histEntries ops σ1)
    (h2 : e2 ∈ histEntries ops σ2) (hid : e1.event_id = e2.event_id) : e1 = e2 := by
  obtain ⟨op1, hm1, he1, _⟩ := histEntries_mem ops σ1 e1 h1
  obtain ⟨op2, hm2, he2, _⟩ := histEntries_mem ops σ2 e2 h2
  have hu : op1.uuid = op2.uuid := by
    rw [← he1, ← he2] at hid
    exact hid
  have := List.inj_on_of_nodup_map hnd hm1 hm2 hu
  rw [← he1, ← he2, this]

theorem histEntries_ids_nodup (ops : List AppendOp) (hnd : (ops.map AppendOp.uuid).Nodup)
    (σ : String) : ((histEntries ops σ).map EventEntry.event_id).Nodup :=
  List.Nodup.sublist (histEntries_ids_sublist ops σ) hnd

theorem listLookup_erase_self {α : Type} (l : List (String × α)) (k : String)
    (h : (l.map Prod.fst).Nodup) : listLookup (listErase l k) k = none := by
  induction l with
  | nil => simp [listErase, listLookup]
  | cons p t ih =>
    obtain ⟨k2, v⟩ := p
    rw [List.map_cons, List.nodup_cons] at h
    by_cases h2 : k2 = k
    · subst h2
      simp only [listErase, if_pos rfl]
      exact listLookup_of_not_mem t k2 h.1
    · simp only [listErase, if_neg h2, listLookup, if_neg h2]
      exact ih h.2

theorem map_fst_upsert_not_mem {α : Type} (l : List (String × α)) (k : String) (v : α)
    (h : k ∉ l.map Prod.fst) :
    (listUpsert l k v).map Prod.fst = l.map Prod.fst ++ [k] := by
  induction l with
  | nil => simp [listUpsert]
  | cons p t ih =>
    obtain ⟨k2, v2⟩ := p
    rw [List.map_cons, List.mem_cons] at h
    push_neg at h
    have h2 : ¬ (k2 = k) := fun hh => h.1 hh.symm
    simp [listUpsert, h2, ih h.2]

theorem map_fst_erase_sublist {α : Type} (l : List (String × α)) (k : String) :
    List.Sublist ((listErase l k).map Prod.fst) (l.map Prod.fst) := by
  induction l with
  | nil => simp [listErase]
  | cons p t ih =>
    obtain ⟨k2, v⟩ := p
    by_cases h2 : k2 = k
    · subst h2
      simp only [listErase, if_pos rfl, List.map_cons]
      exact List.sublist_cons_of_sublist _ (List.Sublist.refl _)
    · simp only [listErase, if_neg h2, List.map_cons]
      exact List.Sublist.cons₂ _ ih

theorem mem_keys_of_lookup {α : Type} (l : List (String × α)) (k : String) (v : α)
    (h : listLookup l k = some v) : k ∈ l.map Prod.fst := by
  induction l with
  | nil => simp [listLookup] at h
  | cons p t ih =>
    obtain ⟨k2, v2⟩ := p
    by_cases h2 : k2 = k
    · subst h2; simp
    · rw [listLookup, if_neg h2] at h
      simp [ih h]

theorem lookup_of_mem_keys {α : Type} (l : List (String × α)) (k : String)
    (h : k ∈ l.map Prod.fst) : ∃ v, listLookup l k = some v := by
  induction l with
  | nil => simp at h
  | cons p t ih =>
    obtain ⟨k2, v2⟩ := p
    by_cases h2 : k2 = k
    · subst h2
      exact ⟨v2, by simp [listLookup]⟩
    · rw [List.map_cons, List.mem_cons] at h
      rcases h with h | h


      · exact absurd h.symm h2
      · obtain ⟨v, hv⟩ := ih h
        exact ⟨v, by rw [listLookup, if_neg h2]; exact hv⟩

theorem lastN_subset {α : Type} (m : Nat) (l : List α) :
    ∀ x ∈ lastN m l, x ∈ l := by
  intro x hx
  rw [lastN] at hx
  exact (List.drop_sublist _ _).subset hx

theorem lastN_ids_nodup (ops : List AppendOp) (hnd : (ops.map AppendOp.uuid).Nodup)
    (m : Nat) (σ : String) :
    ((lastN m (histEntries ops σ)).map EventEntry.event_id).Nodup := by
  refine List.Nodup.sublist ?_ (histEntries_ids_nodup ops hnd σ)
  rw [lastN]
  exact List.Sublist.map _ (List.drop_sublist _ _)

/-- What `store_event` does, as an explicit record (inmemory.py lines
28–43, with `cur` the current deque contents). -/
theorem store_event_eq (st : InMemoryEventStore) (sid msg u : String) (m : Nat)
    (hmax : st.max_events_per_stream = m) :
    (st.store_event sid msg u).1
      = { max_events_per_stream := m,
          streams := listUpsert st.streams sid
            (if ((listLookup st.streams sid).getD []).length < m
             then (listLookup st.streams sid).getD [] ++ [(EventEntry.mk u sid msg)]
             else (((listLookup st.streams sid).getD []) ++ [(EventEntry.mk u sid msg)]).drop
               (((listLookup st.streams sid).getD []).length + 1 - m)),
          event_index := listUpsert
            (match (listLookup st.streams sid).getD [] with
             | [] => st.event_index
             | oldest :: _ =>
               if ((listLookup st.streams sid).getD []).length = m
               then listErase st.event_index oldest.event_id
               else st.event_index) u (EventEntry.mk u sid msg) } := by
  subst hmax
  rfl

/-- An element of the retained window survives an append unless it is
the evicted head of a full window. -/
theorem mem_lastN_append_one {α : Type} (m : Nat) (l : List α) (x e : α)
    (hmem : e ∈ lastN m l)
    (hsurv : ∀ oldest rest, lastN m l = oldest :: rest → (lastN m l).length = m →
      e ≠ oldest) :
    e ∈ lastN m (l ++ [x]) := by
  rw [lastN_append_one]
  by_cases hcl : (lastN m l).length < m
  · rw [if_pos hcl]
    exact List.mem_append_left _ hmem
  · have hlenm : (lastN m l).length = m := by
      have := length_lastN m l
      omega
    rw [if_neg hcl, hlenm]
    have h1 : m + 1 - m = 1 := by omega
    rw [h1]
    cases hc : lastN m l with
    | nil =>
      rw [hc] at hmem
      simp at hmem
    | cons oldest rest =>
      rw [hc] at hmem
      rcases List.mem_cons.mp hmem with hh | hh
      · exact absurd hh (hsurv oldest rest hc hlenm)
      · simp only [List.cons_append, List.drop_succ_cons, List.drop_zero]
        exact List.mem_append_left _ hh

/-- Reachable-state invariant of `InMemoryEventStore` under fresh
uuid draws and positive capacity: each stream holds the last `m`
entries of its append history; the index has distinct keys, maps only
to live entries, and covers every live entry. -/
theorem runAppends_inv (m : Nat) (hm : 1 ≤ m) :
    ∀ ops : List AppendOp, (ops.map AppendOp.uuid).Nodup →
      (runAppends m ops).max_events_per_stream = m ∧
      (∀ σ, (listLookup (runAppends m ops).streams σ).getD []
          = lastN m (histEntries ops σ)) ∧
      ((runAppends m ops).event_index.map Prod.fst).Nodup ∧
      (∀ X e, listLookup (runAppends m ops).event_index X = some e →
        X = e.event_id ∧ e ∈ lastN m (histEntries ops e.stream_id)) ∧
      (∀ σ e, e ∈ lastN m (histEntries ops σ) →
        listLookup (runAppends m ops).event_index e.event_id = some e) := by
  intro ops
  induction ops using List.reverseRecOn with
  | nil =>
    intro _
    refine ⟨rfl, ?_, ?_, ?_, ?_⟩
    · intro σ
      simp [runAppends, histEntries, lastN, listLookup]
    · simp [runAppends]
    · intro X e h
      simp [runAppends, listLookup] at h
    · intro σ e h
      simp [histEntries, lastN] at h
  | append_singleton ops op ih =>
    intro hnd
    rw [List.map_append] at hnd
    have hnd0 : (ops.map AppendOp.uuid).Nodup := (List.nodup_append.mp hnd).1
    have hfresh : op.uuid ∉ ops.map AppendOp.uuid := by
      intro hmem
      exact (List.nodup_append.mp hnd).2.2 hmem (by simp)
    obtain ⟨ihmax, ihstreams, ihnodup, ihsound, ihcomplete⟩ := ih hnd0
    have hrun : runAppends m (ops ++ [op])
        = ((runAppends m ops).store_event op.stream op.message op.uuid).1 := by
      simp [runAppends, List.foldl_append]
    have hse := store_event_eq (runAppends m ops) op.stream op.message op.uuid m ihmax
    rw [ihstreams op.stream] at hse
    rw [hse] at hrun
    have hcur_sub : ∀ x ∈ lastN m (histEntries ops op.stream),
        x ∈ histEntries ops op.stream := lastN_subset m _
    have hid_ne : ∀ e ∈ lastN m (histEntries ops op.stream), e.event_id ≠ op.uuid := by
      intro e he hcontra
      exact hfresh (hcontra ▸ histEntries_id_mem ops op.stream e (hcur_sub e he))
    have hufresh_idx : op.uuid ∉ (runAppends m ops).event_index.map Prod.fst := by
      intro hmem
      obtain ⟨v, hv⟩ := lookup_of_mem_keys _ _ hmem
      obtain ⟨hXv, hvmem⟩ := ihsound op.uuid v hv
      exact hfresh (hXv ▸ histEntries_id_mem ops v.stream_id v
        (lastN_subset m _ v hvmem))
    have hcur1 : (if (lastN m (histEntries ops op.stream)).length < m
          then lastN m (histEntries ops op.stream)
            ++ [(EventEntry.mk op.uuid op.stream op.message)]
          else (lastN m (histEntries ops op.stream)
            ++ [(EventEntry.mk op.uuid op.stream op.message)]).drop
            ((lastN m (histEntries ops op.stream)).length + 1 - m))
        = lastN m (histEntries ops op.stream
            ++ [(EventEntry.mk op.uuid op.stream op.message)]) :=
      (lastN_append_one m _ _).symm
    have hentry : AppendOp.entry op = EventEntry.mk op.uuid op.stream op.message := rfl
    -- survival of an old entry of the appended stream, provided it is not the
    -- evicted head (which is exactly the entry whose index binding is erased)
    have hsurvive : ∀ e, e ∈ lastN m (histEntries ops op.stream) →
        (∀ oldest rest, lastN m (histEntries ops op.stream) = oldest :: rest →
          (lastN m (histEntries ops op.stream)).length = m → e ≠ oldest) →
        e ∈ lastN m (histEntries (ops ++ [op]) op.stream) := by
      intro e hmem hsurv
      rw [histEntries_append_one]
      simp only [hentry, if_pos rfl]
      exact mem_lastN_append_one m _ _ e hmem hsurv
    refine ⟨?_, ?_, ?_, ?_, ?_⟩
    · rw [hrun]
    · intro σ
      rw [hrun]
      simp only []
      by_cases hσ : op.stream = σ
      · subst hσ
        rw [listLookup_upsert_self]
        rw [Option.getD_some, hcur1, histEntries_append_one]
        simp [hentry]
      · rw [listLookup_upsert_ne _ _ _ _ (fun hh => hσ hh.symm)]
        rw [ihstreams σ, histEntries_append_one]
        simp [hσ]
    · rw [hrun]
      simp only []
      have hkeys1 : ∀ idx1 : List (String × EventEntry),
          List.Sublist (idx1.map Prod.fst) ((runAppends m ops).event_index.map Prod.fst) →
          ((listUpsert idx1 op.uuid (EventEntry.mk op.uuid op.stream op.message)).map
            Prod.fst).Nodup := by
        intro idx1 hsub
        have hu1 : op.uuid ∉ idx1.map Prod.fst := fun hmem => hufresh_idx (hsub.subset hmem)
        rw [map_fst_upsert_not_mem _ _ _ hu1, List.nodup_append]
        refine ⟨List.Nodup.sublist hsub ihnodup, by simp, ?_⟩
        intro a ha hamem
        rw [List.mem_singleton] at hamem
        subst hamem
        exact hufresh_idx (hsub.subset ha)
      rcases hc : lastN m (histEntries ops op.stream) with _ | ⟨oldest, rest⟩
      · exact hkeys1 _ (List.Sublist.refl _)
      · by_cases hlen : (oldest :: rest).length = m
        · simp only [if_pos hlen]
          exact hkeys1 _ (map_fst_erase_sublist _ _)
        · simp only [if_neg hlen]
          exact hkeys1 _ (List.Sublist.refl _)
    · intro X e h
      rw [hrun] at h
      simp only [] at h
      by_cases hX : X = op.uuid
      · subst hX
        rw [listLookup_upsert_self] at h
        have he : e = EventEntry.mk op.uuid op.stream op.message := by
          injection h with h2
          exact h2.symm
        subst he
        refine ⟨rfl, ?_⟩
        simp only []
        rw [histEntries_append_one]
        simp only [hentry, if_pos rfl]
        exact mem_lastN_last m hm _ _
      · rw [listLookup_upsert_ne _ _ _ _ hX] at h
        rcases hc : lastN m (histEntries ops op.stream) with _ | ⟨oldest, rest⟩
        · rw [hc] at h
          have h2 : listLookup (runAppends m ops).event_index X = some e := h
          obtain ⟨hXe, hmem⟩ := ihsound X e h2
          refine ⟨hXe, ?_⟩
          by_cases hσ : e.stream_id = op.stream
          · rw [hσ] at hmem
            rw [hc] at hmem
            simp at hmem
          · have hσ2 : ¬ (op.stream = e.stream_id) := fun hh => hσ hh.symm
            rw [histEntries_append_one]
            simp [hσ2, hmem]
        · rw [hc] at h
          by_cases hlen : (oldest :: rest).length = m
          · have h2 : listLookup
                (listErase (runAppends m ops).event_index oldest.event_id) X = some e := by
              have hcast : listLookup (if (oldest :: rest).length = m
                  then listErase (runAppends m ops).event_index oldest.event_id
                  else (runAppends m ops).event_index) X = some e := h
              rwa [if_pos hlen] at hcast
            by_cases hXold : X = oldest.event_id
            · rw [hXold, listLookup_erase_self _ _ ihnodup] at h2
              exact absurd h2 (by simp)
            · rw [listLookup_erase_ne _ _ _ hXold] at h2
              obtain ⟨hXe, hmem⟩ := ihsound X e h2
              refine ⟨hXe, ?_⟩
              by_cases hσ : e.stream_id = op.stream
              · rw [hσ] at hmem ⊢
                refine hsurvive e hmem ?_
                intro oldest2 rest2 hc2 _ hcontra
                have hco : oldest :: rest = oldest2 :: rest2 := by
                  rw [← hc]
                  exact hc2
                injection hco with hc3 _
                rw [hcontra, ← hc3] at hXe
                exact hXold hXe
              · have hσ2 : ¬ (op.stream = e.stream_id) := fun hh => hσ hh.symm
                rw [histEntries_append_one]
                simp [hσ2, hmem]
          · have h2 : listLookup (runAppends m ops).event_index X = some e := by
              have hcast : listLookup (if (oldest :: rest).length = m
                  then listErase (runAppends m ops).event_index oldest.event_id
                  else (runAppends m ops).event_index) X = some e := h
              rwa [if_neg hlen] at hcast
            obtain ⟨hXe, hmem⟩ := ihsound X e h2
            refine ⟨hXe, ?_⟩
            by_cases hσ : e.stream_id = op.stream
            · rw [hσ] at hmem ⊢
              refine hsurvive e hmem ?_
              intro oldest2 rest2 hc2 hlen2 _
              refine absurd ?_ hlen
              rw [← hc]
              exact hlen2
            · have hσ2 : ¬ (op.stream = e.stream_id) := fun hh => hσ hh.symm
              rw [histEntries_append_one]
              simp [hσ2, hmem]
    · intro σ e hmem
      rw [hrun]
      simp only []
      rw [histEntries_append_one] at hmem
      by_cases hσ : op.stream = σ
      · rw [if_pos hσ, hentry] at hmem
        have hσ2 : σ = op.stream := hσ.symm
        subst hσ2
        rw [← hcur1] at hmem
        by_cases hcl : (lastN m (histEntries ops op.stream)).length < m
        · rw [if_pos hcl] at hmem
          rcases List.mem_append.mp hmem with hh | hh
          · have hne : e.event_id ≠ op.uuid := hid_ne e hh
            rw [listLookup_upsert_ne _ _ _ _ hne]
            rcases hc : lastN m (histEntries ops op.stream) with _ | ⟨oldest, rest⟩
            · rw [hc] at hh
              simp at hh
            · have hlen : ¬ ((oldest :: rest).length = m) := by
                rw [hc] at hcl
                omega
              simp only [if_neg hlen]
              exact ihcomplete op.stream e hh
          · rw [List.mem_singleton] at hh
            subst hh
            rw [listLookup_upsert_self]
        · rw [if_neg hcl] at hmem
          have hlenm : (lastN m (histEntries ops op.stream)).length = m := by
            have := length_lastN m (histEntries ops op.stream)
            omega
          rcases hc : lastN m (histEntries ops op.stream) with _ | ⟨oldest, rest⟩
          · rw [hc] at hlenm
            simp at hlenm
            omega
          · have hlenm2 : (oldest :: rest).length = m := by
              rw [← hc]
              exact hlenm
            rw [hc] at hmem
            rw [hlenm2] at hmem
            have h1 : m + 1 - m = 1 := by omega
            rw [h1] at hmem
            simp only [List.cons_append, List.drop_succ_cons, List.drop_zero] at hmem
            rcases List.mem_append.mp hmem with hh | hh
            · have hecur : e ∈ lastN m (histEntries ops op.stream) := by
                rw [hc]
                exact List.mem_cons_of_mem _ hh
              have hne : e.event_id ≠ op.uuid := hid_ne e hecur
              rw [listLookup_upsert_ne _ _ _ _ hne]
              simp only [if_pos hlenm2]
              have hneold : e.event_id ≠ oldest.event_id := by
                intro hcontra
                have hnodups := lastN_ids_nodup ops hnd0 m op.stream
                rw [hc, List.map_cons, List.nodup_cons] at hnodups
                exact hnodups.1 (hcontra ▸ List.mem_map.mpr ⟨e, hh, rfl⟩)
              rw [listLookup_erase_ne _ _ _ hneold]
              exact ihcomplete op.stream e hecur
            · rw [List.mem_singleton] at hh
              subst hh
              rw [listLookup_upsert_self]
      · rw [if_neg hσ, List.append_nil] at hmem
        have hestream : e.stream_id = σ :=
          histEntries_stream ops σ e (lastN_subset m _ e hmem)
        have hne : e.event_id ≠ op.uuid := by
          intro hcontra
          exact hfresh (hcontra ▸ histEntries_id_mem ops σ e (lastN_subset m _ e hmem))
        rw [listLookup_upsert_ne _ _ _ _ hne]
        rcases hc : lastN m (histEntries ops op.stream) with _ | ⟨oldest, rest⟩
        · exact ihcomplete σ e hmem
        · by_cases hlen : (oldest :: rest).length = m
          · simp only [if_pos hlen]
            have holdmem : oldest ∈ histEntries ops op.stream := by
              refine hcur_sub oldest ?_
              rw [hc]
              simp
            have hneold : e.event_id ≠ oldest.event_id := by
              intro hcontra
              have heq := histEntries_inj ops hnd0 σ op.stream e oldest
                (lastN_subset m _ e hmem) holdmem hcontra
              rw [heq, histEntries_stream ops op.stream oldest holdmem] at hestream
              exact hσ hestream
            rw [listLookup_erase_ne _ _ _ hneold]
            exact ihcomplete σ e hmem
          · simp only [if_neg hlen]
            exact ihcomplete σ e hmem

theorem histEntries_decomp (pre post : List AppendOp) (opX : AppendOp) (σ : String)
    (hσ : opX.stream = σ) :
    histEntries (pre ++ opX :: post) σ
      = histEntries pre σ ++ opX.entry :: histEntries post σ := by
  simp only [histEntries, List.filter_append, List.filter_cons, hσ]
  simp

/-- If `x` is still inside the retained window of `A ++ x :: B` and
occurs nowhere else, the window is a cut of `A` followed by `x :: B`. -/
theorem lastN_mem_decomp {α : Type} (m : Nat) (A B : List α) (x : α)
    (hxB : x ∉ B) (hmem : x ∈ lastN m (A ++ x :: B)) :
    lastN m (A ++ x :: B)
      = A.drop ((A ++ x :: B).length - m) ++ x :: B := by
  rw [lastN] at hmem ⊢
  by_cases hka : (A ++ x :: B).length - m ≤ A.length
  · rw [List.drop_append_of_le_length hka]
  · exfalso
    have hsplit : (A ++ x :: B).length - m
        = A.length + ((A ++ x :: B).length - m - A.length) := by omega
    rw [hsplit, List.drop_append] at hmem
    have hpos : 1 ≤ (A ++ x :: B).length - m - A.length := by omega
    obtain ⟨j, hj⟩ : ∃ j, (A ++ x :: B).length - m - A.length = j + 1 :=
      ⟨(A ++ x :: B).length - m - A.length - 1, by omega⟩
    rw [hj] at hmem
    simp only [List.drop_succ_cons] at hmem
    exact hxB ((List.drop_sublist _ _).subset hmem)

/-- C4: `replay_events_after(X, cb)` on any store reachable by
appends with fresh uuid draws and positive capacity.  If no stored
event has id `X` it returns none and invokes nothing.  If the event
appended with id `X` on stream `σ` is still stored, it invokes the
callback exactly once per event appended to `σ` strictly after it, in
append order — events of other streams are never delivered — and
returns `σ` even when no events follow. -/
theorem claim_C4_replay_events_after (m : Nat) (hm : 1 ≤ m) (ops : List AppendOp)
    (hnd : (ops.map AppendOp.uuid).Nodup) (X : String) :
    ((∀ σ evs, listLookup (runAppends m ops).streams σ = some evs →
        ∀ e ∈ evs, e.event_id ≠ X) →
      (runAppends m ops).replay_events_after X = (none, [])) ∧
    (∀ pre post σ msg, ops = pre ++ (AppendOp.mk σ msg X) :: post →
      (∃ σ2 evs, listLookup (runAppends m ops).streams σ2 = some evs ∧
        ∃ e ∈ evs, e.event_id = X) →
      (runAppends m ops).replay_events_after X
        = (some σ, (post.filter fun op2 => op2.stream = σ).map
            fun op2 => (op2.message, op2.uuid))) := by
  obtain ⟨_, hstreams, hkeys, hsound, hcomplete⟩ := runAppends_inv m hm ops hnd
  constructor
  · intro hnone
    have hidx : listLookup (runAppends m ops).event_index X = none := by
      cases hl : listLookup (runAppends m ops).event_index X with
      | none => rfl
      | some e =>
        obtain ⟨hXe, hmem⟩ := hsound X e hl
        exfalso
        have hgd := hstreams e.stream_id
        cases hls : listLookup (runAppends m ops).streams e.stream_id with
        | none =>
          rw [hls] at hgd
          simp only [Option.getD_none] at hgd
          rw [← hgd] at hmem
          simp at hmem
        | some evs =>
          rw [hls] at hgd
          simp only [Option.getD_some] at hgd
          exact hnone e.stream_id evs hls e (hgd ▸ hmem) hXe.symm
    simp [InMemoryEventStore.replay_events_after, hidx]
  · intro pre post σ msg hops hstored
    -- the event with id X is in the index
    obtain ⟨σ2, evs, hls, e, hemem, heid⟩ := hstored
    have hgd := hstreams σ2
    rw [hls] at hgd
    simp only [Option.getD_some] at hgd
    have hidx : listLookup (runAppends m ops).event_index X = some e := by
      have := hcomplete σ2 e (hgd ▸ hemem)
      rw [heid] at this
      exact this
    obtain ⟨hXe, hmem⟩ := hsound X e hidx
    -- identify e with the entry of the op that appended X
    have hopmem : AppendOp.mk σ msg X ∈ ops := by
      rw [hops]
      simp
    have heX : (AppendOp.mk σ msg X).entry ∈ histEntries ops σ := by
      simp only [histEntries, List.mem_map]
      refine ⟨AppendOp.mk σ msg X, ?_, rfl⟩
      rw [List.mem_filter]
      exact ⟨hopmem, by simp⟩
    have hee : e = (AppendOp.mk σ msg X).entry := by
      refine histEntries_inj ops hnd e.stream_id σ e (AppendOp.mk σ msg X).entry
        (lastN_subset m _ e hmem) heX ?_
      rw [← hXe]
      rfl
    have hesid : e.stream_id = σ := by rw [hee]; rfl
    rw [hesid] at hmem
    -- the stream list under σ
    have hgds := hstreams σ
    have hcurne : lastN m (histEntries ops σ) ≠ [] := fun hemp => by
      rw [hemp] at hmem
      simp at hmem
    have hlsσ : listLookup (runAppends m ops).streams σ
        = some (lastN m (histEntries ops σ)) := by
      cases hls2 : listLookup (runAppends m ops).streams σ with
      | none =>
        rw [hls2] at hgds
        simp only [Option.getD_none] at hgds
        exact absurd hgds.symm hcurne
      | some evs2 =>
        rw [hls2] at hgds
        simp only [Option.getD_some] at hgds
        rw [hgds]
    -- decompose the history around the X append
    have hdec : histEntries ops σ
        = histEntries pre σ ++ (AppendOp.mk σ msg X).entry :: histEntries post σ := by
      rw [hops]
      exact histEntries_decomp pre post (AppendOp.mk σ msg X) σ rfl
    have hids := histEntries_ids_nodup ops hnd σ
    rw [hdec, List.map_append, List.map_cons] at hids
    rw [List.nodup_append] at hids
    have hXA : X ∉ (histEntries pre σ).map EventEntry.event_id := by
      intro hmemA
      exact hids.2.2 hmemA (by simp [AppendOp.entry])
    have hXB : X ∉ (histEntries post σ).map EventEntry.event_id := by
      have := hids.2.1
      rw [List.nodup_cons] at this
      intro hmemB
      exact this.1 (by simpa [AppendOp.entry] using hmemB)
    have hxB : (AppendOp.mk σ msg X).entry ∉ histEntries post σ := by
      intro hc
      exact hXB (List.mem_map.mpr ⟨_, hc, rfl⟩)
    have hwin := lastN_mem_decomp m (histEntries pre σ) (histEntries post σ)
      (AppendOp.mk σ msg X).entry hxB (by rw [← hdec, ← hee]; exact hmem)
    rw [← hdec] at hwin
    -- compute the replay
    simp only [InMemoryEventStore.replay_events_after, hidx, hesid, hlsσ]
    rw [if_neg hcurne, hwin]
    rw [deliverAfter_not_mem]
    · rw [deliverAfter_start _ _ _ (by rfl)]
      simp only [histEntries, List.map_map]
      rfl
    · intro e2 he2 hc
      refine hXA ?_
      rw [← hc]
      refine List.mem_map.mpr ⟨e2, ?_, rfl⟩
      exact (List.drop_sublist _ _).subset he2

/-- Witness for C4: three appends, two on stream `"s"` and one on
`"t"`; replaying after the first `"s"` event delivers exactly the
later `"s"` event and returns `"s"`. -/
theorem claim_C4_replay_events_after_witness :
    ((1 ≤ 100 ∧
      (([AppendOp.mk "s" "m1" "u1", AppendOp.mk "t" "n1" "v1",
         AppendOp.mk "s" "m2" "u2"].map AppendOp.uuid).Nodup)) ∧
    (runAppends 100 [AppendOp.mk "s" "m1" "u1", AppendOp.mk "t" "n1" "v1",
        AppendOp.mk "s" "m2" "u2"]).replay_events_after "u1"
      = (some "s", [("m2", "u2")])) := by
  refine ⟨⟨by decide, by decide⟩, ?_⟩
  have h := (claim_C4_replay_events_after 100 (by decide)
    [AppendOp.mk "s" "m1" "u1", AppendOp.mk "t" "n1" "v1", AppendOp.mk "s" "m2" "u2"]
    (by decide) "u1").2
    [] [AppendOp.mk "t" "n1" "v1", AppendOp.mk "s" "m2" "u2"] "s" "m1" rfl
    ⟨"s", [EventEntry.mk "u1" "s" "m1", EventEntry.mk "u2" "s" "m2"], rfl,
     EventEntry.mk "u1" "s" "m1", by decide, rfl⟩
  rw [h]
  rfl

/-- C3 counterexample: the in-memory store assigns event ids from
`uuid4()` draws; two in-order appends to one stream with draws `"b"`
then `"a"` yield ids that are not increasing under the string (store)
ordering, refuting `event_id(e1) < event_id(e2)`. -/
theorem claim_C3_counterexample :
    ((⟨100, [], []⟩ : InMemoryEventStore).store_event "s" "m1" "b").2 = "b" ∧
    ((((⟨100, [], []⟩ : InMemoryEventStore).store_event "s" "m1" "b").1).store_event
      "s" "m2" "a").2 = "a" ∧
    ¬ (((⟨100, [], []⟩ : InMemoryEventStore).store_event "s" "m1" "b").2
      < ((((⟨100, [], []⟩ : InMemoryEventStore).store_event "s" "m1" "b").1).store_event
        "s" "m2" "a").2) := by
  refine ⟨rfl, rfl, ?_⟩
  intro h
  rw [show ((⟨100, [], []⟩ : InMemoryEventStore).store_event "s" "m1" "b").2 = "b" from rfl,
    show ((((⟨100, [], []⟩ : InMemoryEventStore).store_event "s" "m1" "b").1).store_event
      "s" "m2" "a").2 = "a" from rfl, String.lt_iff_toList_lt] at h
  rcases h with _ | _ | h
  · simp at *

/-- C3 amended: `store_event` returns the drawn uuid as the event id,
with no ordering guarantee between draws; what does hold is insertion
order: after two in-order appends to one stream (distinct draws,
capacity at least 2) the stream holds both events in order and
`replay_events_after(event_id(e1))` delivers `e2` but not `e1`. -/
theorem claim_C3_event_id_order (σ msg1 msg2 u1 u2 : String) (m : Nat)
    (hm : 2 ≤ m) (hne : u1 ≠ u2) :
    ((⟨m, [], []⟩ : InMemoryEventStore).store_event σ msg1 u1).2 = u1 ∧
    ((((⟨m, [], []⟩ : InMemoryEventStore).store_event σ msg1 u1).1).store_event
      σ msg2 u2).2 = u2 ∧
    (listLookup (runAppends m [AppendOp.mk σ msg1 u1, AppendOp.mk σ msg2 u2]).streams
        σ).getD []
      = [EventEntry.mk u1 σ msg1, EventEntry.mk u2 σ msg2] ∧
    (runAppends m [AppendOp.mk σ msg1 u1, AppendOp.mk σ msg2 u2]).replay_events_after u1
      = (some σ, [(msg2, u2)]) := by
  have hm0 : ((0 : Nat) < m) := by omega
  have hm1 : ((1 : Nat) < m) := by omega
  have hm1e : ¬ ((1 : Nat) = m) := by omega
  have hrun : runAppends m [AppendOp.mk σ msg1 u1, AppendOp.mk σ msg2 u2]
      = ⟨m, [(σ, [EventEntry.mk u1 σ msg1, EventEntry.mk u2 σ msg2])],
          [(u1, EventEntry.mk u1 σ msg1), (u2, EventEntry.mk u2 σ msg2)]⟩ := by
    simp [runAppends, InMemoryEventStore.store_event, listLookup, listUpsert,
      hm0, hm1, hm1e, hne]
  refine ⟨rfl, ?_, ?_, ?_⟩
  · simp [InMemoryEventStore.store_event, listLookup, listUpsert, hm0, hm1, hm1e]
  · rw [hrun]
    simp [listLookup]
  · rw [hrun]
    simp [InMemoryEventStore.replay_events_after, listLookup, deliverAfter, hne]

/-- Witness for the amended C3 statement at concrete draws. -/
theorem claim_C3_event_id_order_witness :
    ((2 : Nat) ≤ 100 ∧ "u1" ≠ "u2") ∧
    (runAppends 100 [AppendOp.mk "s" "a" "u1",
        AppendOp.mk "s" "b" "u2"]).replay_events_after "u1"
      = (some "s", [("b", "u2")]) :=
  ⟨⟨by decide, by decide⟩,
   (claim_C3_event_id_order "s" "a" "b" "u1" "u2" 100 (by decide) (by decide)).2.2.2⟩

/-! ## JSON serializer/parser round trip (towards C1) -/

theorem takeWhile_append_of_all {α : Type} (p : α → Bool) (l1 l2 : List α)
    (h : ∀ c ∈ l1, p c = true) :
    (l1 ++ l2).takeWhile p = l1 ++ l2.takeWhile p := by
  induction l1 with
  | nil => simp
  | cons c t ih =>
    have hc := h c (by simp)
    simp only [List.cons_append, List.takeWhile_cons, hc]
    rw [ih fun c2 h2 => h c2 (by simp [h2])]
    simp

theorem dropWhile_append_of_all {α : Type} (p : α → Bool) (l1 l2 : List α)
    (h : ∀ c ∈ l1, p c = true) :
    (l1 ++ l2).dropWhile p = l2.dropWhile p := by
  induction l1 with
  | nil => simp
  | cons c t ih =>
    have hc := h c (by simp)
    simp only [List.cons_append, List.dropWhile_cons, hc]
    rw [ih fun c2 h2 => h c2 (by simp [h2])]
    simp

theorem takeWhile_cons_neg {α : Type} (p : α → Bool) (c : α) (l : List α)
    (h : p c = false) : (c :: l).takeWhile p = [] := by
  simp [List.takeWhile_cons, h]

theorem dropWhile_cons_neg {α : Type} (p : α → Bool) (c : α) (l : List α)
    (h : p c = false) : (c :: l).dropWhile p = c :: l := by
  simp [List.dropWhile_cons, h]

/-- `parseStr` inverts the serializer on a well-formed string body. -/
theorem parseStr_roundtrip (s : String) (r : List Char) (hwf : wfStr s = true) :
    parseStr (s.toList ++ '"' :: r) = some (s, r) := by
  have hgood : ∀ c ∈ s.toList, goodStrChar c = true := by
    intro c hc
    exact List.all_eq_true.mp hwf c hc
  have hne : ∀ c ∈ s.toList, (fun c => decide (c ≠ '"')) c = true := by
    intro c hc
    have := hgood c hc
    simp only [goodStrChar, Bool.and_eq_true, decide_eq_true_eq] at this
    simp [this.1.1]
  have ht : (s.toList ++ '"' :: r).takeWhile (fun c => decide (c ≠ '"'))
      = s.toList := by
    rw [takeWhile_append_of_all _ _ _ hne,
      takeWhile_cons_neg (fun c => decide (c ≠ '"')) '"' r (by simp),
      List.append_nil]
  have hd : (s.toList ++ '"' :: r).dropWhile (fun c => decide (c ≠ '"'))
      = '"' :: r := by
    rw [dropWhile_append_of_all _ _ _ hne,
      dropWhile_cons_neg (fun c => decide (c ≠ '"')) '"' r (by simp)]
  have hall : s.toList.all (fun c => decide (c ≠ '\\') && decide (32 ≤ c.toNat)) = true := by
    rw [List.all_eq_true]
    intro c hc
    have := hgood c hc
    simp only [goodStrChar, Bool.and_eq_true, decide_eq_true_eq] at this
    simp [this.1.2, this.2]
  have hback : (s.toList).asString = s := rfl
  simp only [parseStr, ht, hd, hall, if_true, hback]

theorem digitVal_digitChar (d : Nat) (h : d < 10) : digitVal (digitChar d) = d := by
  have hall : ∀ x ∈ List.range 10, digitVal (digitChar x) = x := by decide
  exact hall d (List.mem_range.mpr h)

theorem isDigitChar_digitChar (d : Nat) : isDigitChar (digitChar d) = true := by
  by_cases h : d < 9
  · have hall : ∀ x ∈ List.range 9, isDigitChar (digitChar x) = true := by decide
    exact hall d (List.mem_range.mpr h)
  · obtain ⟨n, rfl⟩ : ∃ n, d = n + 9 := ⟨d - 9, by omega⟩
    show isDigitChar (Char.ofNat 57) = true
    decide

theorem natDigits_ne_nil (k : Nat) : natDigits k ≠ [] := by
  rw [natDigits]
  split <;> simp

theorem natDigits_all_digits (k : Nat) : ∀ c ∈ natDigits k, isDigitChar c = true := by
  induction k using Nat.strong_induction_on with
  | _ k ih =>
    rw [natDigits]
    split
    · intro c hc
      rw [List.mem_singleton] at hc
      subst hc
      exact isDigitChar_digitChar k
    · intro c hc
      rcases List.mem_append.mp hc with hh | hh
      · exact ih (k / 10) (Nat.div_lt_self (by omega) (by omega)) c hh
      · rw [List.mem_singleton] at hh
        subst hh
        exact isDigitChar_digitChar (k % 10)

theorem digitsToNat_go (k : Nat) :
    ∀ a : Nat, List.foldl (fun acc c => acc * 10 + digitVal c) a (natDigits k)
      = a * 10 ^ (natDigits k).length + k := by
  induction k using Nat.strong_induction_on with
  | _ k ih =>
    intro a
    rw [natDigits]
    split
    · rename_i h
      simp [digitVal_digitChar k h]
    · rename_i h
      rw [List.foldl_append, ih (k / 10) (Nat.div_lt_self (by omega) (by omega)) a]
      simp only [List.foldl_cons, List.foldl_nil, List.length_append, List.length_cons,
        List.length_nil]
      rw [digitVal_digitChar (k % 10) (Nat.mod_lt _ (by omega))]
      rw [pow_succ]
      ring_nf
      omega

theorem digitsToNat_natDigits (k : Nat) : digitsToNat (natDigits k) = k := by
  rw [digitsToNat, digitsToNat_go k 0]
  simp

/-- A digit character selects exactly the numeral branch of the
parser: it is none of the keyword, string, sign or bracket openers and
is not whitespace. -/
theorem digit_not_special (c : Char) (h : isDigitChar c = true) :
    c ≠ 'n' ∧ c ≠ 't' ∧ c ≠ 'f' ∧ c ≠ '"' ∧ c ≠ '-' ∧ c ≠ '[' ∧ c ≠ '\x7b' ∧
    isWsChar c = false := by
  simp only [isDigitChar, Bool.and_eq_true, decide_eq_true_eq] at h
  obtain ⟨h1, h2⟩ := h
  have hgen : ∀ x : Char, ¬ (48 ≤ x.toNat ∧ x.toNat ≤ 57) → ¬ (c = x) := by
    intro x hx hc
    subst hc
    exact hx ⟨h1, h2⟩
  have hsp : ¬ (c = ' ') := hgen ' ' (by decide)
  have htb : ¬ (c = '\t') := hgen '\t' (by decide)
  have hnl : ¬ (c = '\n') := hgen '\n' (by decide)
  have hcr : ¬ (c = '\r') := hgen '\r' (by decide)
  refine ⟨hgen 'n' (by decide), hgen 't' (by decide), hgen 'f' (by decide),
    hgen '"' (by decide), hgen '-' (by decide), hgen '[' (by decide),
    hgen '\x7b' (by decide), ?_⟩
  simp [isWsChar, hsp, htb, hnl, hcr]

theorem length_asString (l : List Char) : (List.asString l).length = l.length := rfl

theorem toList_asString (l : List Char) : (List.asString l).toList = l := rfl

theorem toList_append (a b : String) : (a ++ b).toList = a.toList ++ b.toList := rfl

mutual

/-- Fuel bound: the parser has enough fuel on serializer output. -/
def jsize_le_dumps : ∀ j : Json, jsize j ≤ (pyDumps j).length + 1
  | .null => by simp [jsize, pyDumps]
  | .bool b => by cases b <;> simp [jsize, pyDumps]
  | .num n => by simp [jsize]
  | .str s => by simp [jsize]
  | .arr l => by
    have h := jsizeList_le_dumps l
    simp only [jsize, pyDumps]
    rw [String.length_append, String.length_append]
    have hb1 : ("[" : String).length = 1 := rfl
    have hb2 : ("]" : String).length = 1 := rfl
    omega
  | .obj l => by
    have h := jsizeObj_le_dumps l
    simp only [jsize, pyDumps]
    rw [String.length_append, String.length_append]
    have hb1 : ("\x7b" : String).length = 1 := rfl
    have hb2 : ("\x7d" : String).length = 1 := rfl
    omega

def jsizeList_le_dumps : ∀ l : List Json, jsizeList l ≤ (pyDumpsList l).length + 2
  | [] => by simp [jsizeList]
  | [j] => by
    have h := jsize_le_dumps j
    simp only [jsizeList, pyDumpsList]
    omega
  | j :: j2 :: t => by
    have h1 := jsize_le_dumps j
    have h2 := jsizeList_le_dumps (j2 :: t)
    have hL : jsizeList (j :: j2 :: t) = 1 + jsize j + jsizeList (j2 :: t) := rfl
    have hD : pyDumpsList (j :: j2 :: t)
        = pyDumps j ++ ", " ++ pyDumpsList (j2 :: t) := rfl
    rw [hL, hD, String.length_append, String.length_append]
    have hsep : (", " : String).length = 2 := rfl
    omega

def jsizeObj_le_dumps : ∀ l : List (String × Json), jsizeObj l ≤ (pyDumpsObj l).length + 2
  | [] => by simp [jsizeObj]
  | [(k, v)] => by
    have h := jsize_le_dumps v
    simp only [jsizeObj, pyDumpsObj]
    rw [String.length_append, String.length_append, String.length_append]
    have hq : ("\"" : String).length = 1 := rfl
    have hcl : ("\": " : String).length = 3 := rfl
    omega
  | (k, v) :: p :: t => by
    have h1 := jsize_le_dumps v
    have h2 := jsizeObj_le_dumps (p :: t)
    have hO : jsizeObj ((k, v) :: p :: t) = 1 + jsize v + jsizeObj (p :: t) := rfl
    have hD : pyDumpsObj ((k, v) :: p :: t)
        = "\"" ++ k ++ "\": " ++ pyDumps v ++ ", " ++ pyDumpsObj (p :: t) := rfl
    rw [hO, hD, String.length_append, String.length_append, String.length_append,
      String.length_append]
    have hq : ("\"" : String).length = 1 := rfl
    have hcl : ("\": " : String).length = 3 := rfl
    have hsep : (", " : String).length = 2 := rfl
    omega

end


/-! ### Round trip of the embedded json.loads through json.dumps -/

theorem jsize_pos (j : Json) : 1 ≤ jsize j := by
  cases j <;> simp [jsize]

theorem jsizeList_pos (l : List Json) (h : l ≠ []) : 1 ≤ jsizeList l := by
  cases l with
  | nil => exact absurd rfl h
  | cons j t =>
    simp only [jsizeList]
    omega

theorem jsizeObj_pos (l : List (String × Json)) (h : l ≠ []) : 1 ≤ jsizeObj l := by
  cases l with
  | nil => exact absurd rfl h
  | cons p t =>
    obtain ⟨k, v⟩ := p
    simp only [jsizeObj]
    omega

theorem skipWs_cons_neg (c : Char) (l : List Char) (h : isWsChar c = false) :
    skipWs (c :: l) = c :: l := by
  simp [skipWs, List.dropWhile_cons, h]

theorem skipWs_append_of_all (l cs : List Char) (h : ∀ c ∈ l, isWsChar c = true) :
    skipWs (l ++ cs) = skipWs cs :=
  dropWhile_append_of_all isWsChar l cs h

theorem parseVal_ws : ∀ (fuel : Nat) (l cs : List Char),
    (∀ c ∈ l, isWsChar c = true) →
    parseVal fuel (l ++ cs) = parseVal fuel cs
  | 0, _, _, _ => rfl
  | fuel + 1, l, cs, h => by
    simp only [parseVal, skipWs_append_of_all l cs h]

theorem parseElems_ws : ∀ (fuel : Nat) (l cs : List Char) (acc : List Json),
    (∀ c ∈ l, isWsChar c = true) →
    parseElems fuel (l ++ cs) acc = parseElems fuel cs acc
  | 0, _, _, _, _ => rfl
  | fuel + 1, l, cs, acc, h => by
    simp only [parseElems, parseVal_ws fuel l cs h]

theorem parseMembers_ws : ∀ (fuel : Nat) (l cs : List Char) (acc : List (String × Json)),
    (∀ c ∈ l, isWsChar c = true) →
    parseMembers fuel (l ++ cs) acc = parseMembers fuel cs acc
  | 0, _, _, _, _ => rfl
  | fuel + 1, l, cs, acc, h => by
    simp only [parseMembers, skipWs_append_of_all l cs h]

theorem insertField_append (l : List (String × Json)) (k : String) (v : Json)
    (h : k ∉ l.map Prod.fst) : insertField l k v = l ++ [(k, v)] := by
  induction l with
  | nil => rfl
  | cons p t ih =>
    obtain ⟨k2, v2⟩ := p
    rw [List.map_cons, List.mem_cons] at h
    push_neg at h
    simp only [insertField]
    rw [if_neg (fun hh => h.1 hh.symm), ih h.2]
    simp

/-- The serialized form of a value starts with a non-whitespace
character distinct from the array closer. -/
theorem dumps_head : ∀ j : Json, ∃ c l2,
    (pyDumps j).toList = c :: l2 ∧ isWsChar c = false ∧ c ≠ ']'
  | .null => ⟨'n', ['u', 'l', 'l'], rfl, by decide, by decide⟩
  | .bool true => ⟨'t', ['r', 'u', 'e'], rfl, by decide, by decide⟩
  | .bool false => ⟨'f', ['a', 'l', 's', 'e'], rfl, by decide, by decide⟩
  | .str s => ⟨'"', s.toList ++ ['"'], rfl, by decide, by decide⟩
  | .arr l => ⟨'[', (pyDumpsList l).toList ++ [']'], rfl, by decide, by decide⟩
  | .obj l => ⟨'\x7b', (pyDumpsObj l).toList ++ ['\x7d'], rfl, by decide, by decide⟩
  | .num n => by
    by_cases hn : n < 0
    · refine ⟨'-', natDigits n.natAbs, ?_, by decide, by decide⟩
      show ((intChars n).asString).toList = _
      rw [toList_asString, intChars, if_pos hn]
    · obtain ⟨d, t, ht⟩ := List.exists_cons_of_ne_nil (natDigits_ne_nil n.natAbs)
      have hd : isDigitChar d = true :=
        natDigits_all_digits n.natAbs d (ht ▸ List.mem_cons_self d t)
      refine ⟨d, t, ?_, (digit_not_special d hd).2.2.2.2.2.2.2, ?_⟩
      · show ((intChars n).asString).toList = _
        rw [toList_asString, intChars, if_neg hn, ht]
      · intro hc
        subst hc
        revert hd
        decide

/-- Digit runs of serialized numerals stop exactly at the trailer. -/
theorem takeWhile_digits (k : Nat) (rest : List Char) (h : headNotDigit rest = true) :
    (natDigits k ++ rest).takeWhile isDigitChar = natDigits k
    ∧ (natDigits k ++ rest).dropWhile isDigitChar = rest := by
  have hall : ∀ c ∈ natDigits k, isDigitChar c = true := natDigits_all_digits k
  constructor
  · rw [takeWhile_append_of_all _ _ _ hall]
    cases rest with
    | nil => simp
    | cons c t =>
      simp only [headNotDigit, Bool.not_eq_true'] at h
      rw [takeWhile_cons_neg _ _ _ h, List.append_nil]
  · rw [dropWhile_append_of_all _ _ _ hall]
    cases rest with
    | nil => simp
    | cons c t =>
      simp only [headNotDigit, Bool.not_eq_true'] at h
      rw [dropWhile_cons_neg _ _ _ h]

/-- Main round-trip induction: on serializer output followed by any
suitable trailer, the parser returns exactly the serialized value and
the untouched trailer.  The three conjuncts cover values, array tails
and object tails, by induction on the fuel. -/
theorem parse_dumps : ∀ fuel : Nat,
    (∀ (j : Json) (rest : List Char), wfJson j = true → jsize j ≤ fuel →
      headNotDigit rest = true →
      parseVal fuel ((pyDumps j).toList ++ rest) = some (j, rest))
    ∧ (∀ (l : List Json) (acc : List Json) (rest : List Char),
      wfJsonList l = true → l ≠ [] → jsizeList l ≤ fuel →
      parseElems fuel ((pyDumpsList l).toList ++ ']' :: rest) acc
        = some (.arr (acc ++ l), rest))
    ∧ (∀ (l : List (String × Json)) (acc : List (String × Json)) (rest : List Char),
      wfJsonObj l = true → l ≠ [] →
      (∀ p ∈ l, p.1 ∉ acc.map Prod.fst) → jsizeObj l ≤ fuel →
      parseMembers fuel ((pyDumpsObj l).toList ++ '\x7d' :: rest) acc
        = some (.obj (acc ++ l), rest)) := by
  intro fuel
  induction fuel with
  | zero =>
    refine ⟨?_, ?_, ?_⟩
    · intro j rest _ hsz _
      exact absurd (jsize_pos j) (by omega)
    · intro l acc rest _ hne hsz
      exact absurd (jsizeList_pos l hne) (by omega)
    · intro l acc rest _ hne _ hsz
      exact absurd (jsizeObj_pos l hne) (by omega)
  | succ fuel ih =>
    obtain ⟨ihV, ihE, ihM⟩ := ih
    refine ⟨?_, ?_, ?_⟩
    · intro j rest hwf hsz hrest
      cases j with
      | null =>
        have hs : skipWs ((pyDumps Json.null).toList ++ rest)
            = 'n' :: 'u' :: 'l' :: 'l' :: rest := skipWs_cons_neg _ _ (by decide)
        simp only [parseVal, hs]
        simp
      | bool b =>
        cases b with
        | true =>
          have hs : skipWs ((pyDumps (Json.bool true)).toList ++ rest)
              = 't' :: 'r' :: 'u' :: 'e' :: rest := skipWs_cons_neg _ _ (by decide)
          simp only [parseVal, hs]
          simp
        | false =>
          have hs : skipWs ((pyDumps (Json.bool false)).toList ++ rest)
              = 'f' :: 'a' :: 'l' :: 's' :: 'e' :: rest := skipWs_cons_neg _ _ (by decide)
          simp only [parseVal, hs]
          simp
      | str s =>
        have hwfs : wfStr s = true := hwf
        have h1 : (pyDumps (Json.str s)).toList ++ rest
            = '"' :: (s.toList ++ '"' :: rest) := by
          show ('"' :: (s.toList ++ ['"'])) ++ rest = _
          simp [List.append_assoc]
        have hs : skipWs ((pyDumps (Json.str s)).toList ++ rest)
            = '"' :: (s.toList ++ '"' :: rest) := by
          rw [h1]
          exact skipWs_cons_neg _ _ (by decide)
        have hstr := parseStr_roundtrip s rest hwfs
        have hstr2 : parseStr (s.data ++ '"' :: rest) = some (s, rest) := hstr
        simp only [parseVal, hs]
        simp [hstr, hstr2]
      | num n =>
        by_cases hn : n < 0
        · obtain ⟨d, t, ht⟩ := List.exists_cons_of_ne_nil (natDigits_ne_nil n.natAbs)
          have hd : isDigitChar d = true :=
            natDigits_all_digits n.natAbs d (ht ▸ List.mem_cons_self d t)
          have htl : (pyDumps (Json.num n)).toList ++ rest
              = '-' :: (natDigits n.natAbs ++ rest) := by
            show ((intChars n).asString).toList ++ rest = _
            rw [toList_asString, intChars, if_pos hn]
            simp
          have hs : skipWs ((pyDumps (Json.num n)).toList ++ rest)
              = '-' :: (natDigits n.natAbs ++ rest) := by
            rw [htl]
            exact skipWs_cons_neg _ _ (by decide)
          obtain ⟨htake, hdrop⟩ := takeWhile_digits n.natAbs rest hrest
          have hlist : natDigits n.natAbs ++ rest = d :: (t ++ rest) := by
            rw [ht]
            rfl
          rw [hlist] at htake hdrop
          have hneg : -|n| = n := by
            rw [abs_of_neg hn, neg_neg]
          simp only [parseVal, hs]
          rw [hlist]
          simp [htake, hdrop, digitsToNat_natDigits, hd, hneg]
        · obtain ⟨d, t, ht⟩ := List.exists_cons_of_ne_nil (natDigits_ne_nil n.natAbs)
          have hd : isDigitChar d = true :=
            natDigits_all_digits n.natAbs d (ht ▸ List.mem_cons_self d t)
          obtain ⟨hne_n, hne_t, hne_f, hne_q, hne_m, hne_lb, hne_ob, hws⟩ :=
            digit_not_special d hd
          have htl : (pyDumps (Json.num n)).toList ++ rest
              = natDigits n.natAbs ++ rest := by
            show ((intChars n).asString).toList ++ rest = _
            rw [toList_asString, intChars, if_neg hn]
          have hlist : natDigits n.natAbs ++ rest = d :: (t ++ rest) := by
            rw [ht]
            rfl
          have hs : skipWs ((pyDumps (Json.num n)).toList ++ rest)
              = d :: (t ++ rest) := by
            rw [htl, hlist]
            exact skipWs_cons_neg _ _ hws
          obtain ⟨htake, hdrop⟩ := takeWhile_digits n.natAbs rest hrest
          rw [hlist] at htake hdrop
          have hnn : (n.natAbs : Int) = n := by omega
          simp only [parseVal, hs]
          rw [if_neg hne_n, if_neg hne_t, if_neg hne_f, if_neg hne_q, if_neg hne_m,
            if_pos hd, htake, hdrop, digitsToNat_natDigits, hnn]
      | arr l =>
        cases l with
        | nil =>
          have hs : skipWs ((pyDumps (Json.arr [])).toList ++ rest)
              = '[' :: ']' :: rest := skipWs_cons_neg _ _ (by decide)
          simp only [parseVal, hs]
          rw [skipWs_cons_neg ']' rest (by decide)]
          simp
          decide
        | cons j t =>
          have hwfl : wfJsonList (j :: t) = true := hwf
          obtain ⟨c0, l2, hc0, hc0ws, hc0rb⟩ := dumps_head j
          have hsuf : ∃ suf, (pyDumpsList (j :: t)).toList
              = (pyDumps j).toList ++ suf := by
            cases t with
            | nil => exact ⟨[], by simp [pyDumpsList]⟩
            | cons j2 t2 =>
              refine ⟨[',', ' '] ++ (pyDumpsList (j2 :: t2)).toList, ?_⟩
              show (((pyDumps j).toList ++ [',', ' ']) ++ (pyDumpsList (j2 :: t2)).toList) = _
              simp [List.append_assoc]
          obtain ⟨suf, hsuf⟩ := hsuf
          have hR : (pyDumpsList (j :: t)).toList ++ ']' :: rest
              = c0 :: ((l2 ++ suf) ++ ']' :: rest) := by
            rw [hsuf, hc0]
            simp [List.append_assoc]
          have htl : (pyDumps (Json.arr (j :: t))).toList ++ rest
              = '[' :: ((pyDumpsList (j :: t)).toList ++ ']' :: rest) := by
            show ('[' :: ((pyDumpsList (j :: t)).toList ++ [']'])) ++ rest = _
            simp [List.append_assoc]
          have hs : skipWs ((pyDumps (Json.arr (j :: t))).toList ++ rest)
              = '[' :: ((pyDumpsList (j :: t)).toList ++ ']' :: rest) := by
            rw [htl]
            exact skipWs_cons_neg _ _ (by decide)
          have hskip : skipWs ((pyDumpsList (j :: t)).toList ++ ']' :: rest)
              = (pyDumpsList (j :: t)).toList ++ ']' :: rest := by
            rw [hR]
            exact skipWs_cons_neg _ _ hc0ws
          have hnotr : ∀ r2 : List Char,
              (pyDumpsList (j :: t)).toList ++ ']' :: rest ≠ ']' :: r2 := by
            intro r2 hcontra
            rw [hR, List.cons_eq_cons] at hcontra
            exact hc0rb hcontra.1
          have hE := ihE (j :: t) [] rest hwfl (by simp)
            (by simp only [jsize] at hsz; omega)
          simp only [parseVal, hs]
          rw [if_neg (by decide : ¬('[' = 'n')), if_neg (by decide : ¬('[' = 't')),
            if_neg (by decide : ¬('[' = 'f')), if_neg (by decide : ¬('[' = '"')),
            if_neg (by decide : ¬('[' = '-')),
            if_neg (by decide : ¬(isDigitChar '[' = true))]
          rw [if_pos (trivial : True), hskip]
          split
          · rename_i r2 heq
            exact absurd heq (hnotr r2)
          · rw [hE]
            simp
      | obj l =>
        cases l with
        | nil =>
          have hs : skipWs ((pyDumps (Json.obj [])).toList ++ rest)
              = '\x7b' :: '\x7d' :: rest := skipWs_cons_neg _ _ (by decide)
          simp only [parseVal, hs]
          rw [skipWs_cons_neg '\x7d' rest (by decide)]
          simp
          decide
        | cons p t =>
          obtain ⟨k, v⟩ := p
          have hwfo : wfJsonObj ((k, v) :: t) = true := hwf
          have hsuf : ∃ suf, (pyDumpsObj ((k, v) :: t)).toList = '"' :: suf := by
            cases t with
            | nil =>
              exact ⟨(k.toList ++ ['"', ':', ' ']) ++ (pyDumps v).toList, rfl⟩
            | cons p2 t2 =>
              exact ⟨(((k.toList ++ ['"', ':', ' ']) ++ (pyDumps v).toList) ++ [',', ' '])
                ++ (pyDumpsObj (p2 :: t2)).toList, rfl⟩
          obtain ⟨suf, hsuf⟩ := hsuf
          have hR : (pyDumpsObj ((k, v) :: t)).toList ++ '\x7d' :: rest
              = '"' :: (suf ++ '\x7d' :: rest) := by
            rw [hsuf]
            simp
          have htl : (pyDumps (Json.obj ((k, v) :: t))).toList ++ rest
              = '\x7b' :: ((pyDumpsObj ((k, v) :: t)).toList ++ '\x7d' :: rest) := by
            show ('\x7b' :: ((pyDumpsObj ((k, v) :: t)).toList ++ ['\x7d'])) ++ rest = _
            simp [List.append_assoc]
          have hs : skipWs ((pyDumps (Json.obj ((k, v) :: t))).toList ++ rest)
              = '\x7b' :: ((pyDumpsObj ((k, v) :: t)).toList ++ '\x7d' :: rest) := by
            rw [htl]
            exact skipWs_cons_neg _ _ (by decide)
          have hskip : skipWs ((pyDumpsObj ((k, v) :: t)).toList ++ '\x7d' :: rest)
              = (pyDumpsObj ((k, v) :: t)).toList ++ '\x7d' :: rest := by
            rw [hR]
            exact skipWs_cons_neg _ _ (by decide)
          have hnotr : ∀ r2 : List Char,
              (pyDumpsObj ((k, v) :: t)).toList ++ '\x7d' :: rest ≠ '\x7d' :: r2 := by
            intro r2 hcontra
            rw [hR, List.cons_eq_cons] at hcontra
            exact absurd hcontra.1 (by decide)
          have hM := ihM ((k, v) :: t) [] rest hwfo (by simp) (by simp)
            (by simp only [jsize] at hsz; omega)
          simp only [parseVal, hs]
          rw [if_neg (by decide : ¬('\x7b' = 'n')), if_neg (by decide : ¬('\x7b' = 't')),
            if_neg (by decide : ¬('\x7b' = 'f')), if_neg (by decide : ¬('\x7b' = '"')),
            if_neg (by decide : ¬('\x7b' = '-')),
            if_neg (by decide : ¬(isDigitChar '\x7b' = true)),
            if_neg (by decide : ¬('\x7b' = '['))]
          rw [if_pos (trivial : True), hskip]
          split
          · rename_i r2 heq
            exact absurd heq (hnotr r2)
          · rw [hM]
            simp
    · intro l acc rest hwfl hne hsz
      cases l with
      | nil => exact absurd rfl hne
      | cons j t =>
        have hw : wfJson j = true ∧ wfJsonList t = true := by
          simp only [wfJsonList, Bool.and_eq_true] at hwfl
          exact hwfl
        cases t with
        | nil =>
          have hv := ihV j (']' :: rest) hw.1
            (by simp only [jsizeList] at hsz; omega) (by rfl)
          show parseElems (fuel + 1) ((pyDumps j).toList ++ ']' :: rest) acc = _
          simp only [parseElems]
          rw [hv]
          simp [skipWs_cons_neg ']' rest (by decide)]
        | cons j2 t2 =>
          have hlist : (pyDumpsList (j :: j2 :: t2)).toList ++ ']' :: rest
              = (pyDumps j).toList
                ++ (',' :: ' ' :: ((pyDumpsList (j2 :: t2)).toList ++ ']' :: rest)) := by
            show ((((pyDumps j).toList ++ [',', ' ']) ++ (pyDumpsList (j2 :: t2)).toList))
                ++ ']' :: rest = _
            simp [List.append_assoc]
          have hv := ihV j
            (',' :: ' ' :: ((pyDumpsList (j2 :: t2)).toList ++ ']' :: rest)) hw.1
            (by simp only [jsizeList] at hsz; omega) (by rfl)
          have hrec : parseElems fuel
              (' ' :: ((pyDumpsList (j2 :: t2)).toList ++ ']' :: rest)) (acc ++ [j])
              = parseElems fuel
                ((pyDumpsList (j2 :: t2)).toList ++ ']' :: rest) (acc ++ [j]) :=
            parseElems_ws fuel [' '] _ _ (by decide)
          have htail := ihE (j2 :: t2) (acc ++ [j]) rest hw.2 (by simp)
            (by have := jsize_pos j; simp only [jsizeList] at hsz ⊢; omega)
          have hskipc : skipWs (',' :: ' ' :: ((pyDumpsList (j2 :: t2)).data ++ ']' :: rest))
              = ',' :: ' ' :: ((pyDumpsList (j2 :: t2)).data ++ ']' :: rest) :=
            skipWs_cons_neg _ _ (by decide)
          have hrec2 : parseElems fuel
              (' ' :: ((pyDumpsList (j2 :: t2)).data ++ ']' :: rest)) (acc ++ [j])
              = parseElems fuel
                ((pyDumpsList (j2 :: t2)).data ++ ']' :: rest) (acc ++ [j]) := hrec
          have htail2 : parseElems fuel
              ((pyDumpsList (j2 :: t2)).data ++ ']' :: rest) (acc ++ [j])
              = some (.arr ((acc ++ [j]) ++ j2 :: t2), rest) := htail
          simp only [parseElems]
          rw [hlist, hv]
          simp [hskipc, hrec, hrec2, htail, htail2, List.append_assoc]
    · intro l acc rest hwfo hne hfresh hsz
      cases l with
      | nil => exact absurd rfl hne
      | cons p t =>
        obtain ⟨k, v⟩ := p
        have hw4 : wfStr k = true ∧ wfJson v = true
            ∧ (t.any fun p => decide (p.1 = k)) = false ∧ wfJsonObj t = true := by
          simp only [wfJsonObj, Bool.and_eq_true, Bool.not_eq_true'] at hwfo
          exact ⟨hwfo.1.1.1, hwfo.1.1.2, hwfo.1.2, hwfo.2⟩
        have hkfresh : k ∉ acc.map Prod.fst :=
          hfresh (k, v) (List.mem_cons_self _ _)
        have hins : insertField acc k v = acc ++ [(k, v)] :=
          insertField_append acc k v hkfresh
        cases t with
        | nil =>
          have hcs : (pyDumpsObj [(k, v)]).toList ++ '\x7d' :: rest
              = '"' :: (k.toList ++ '"' :: ':' :: ' '
                :: ((pyDumps v).toList ++ '\x7d' :: rest)) := by
            show ('"' :: ((k.toList ++ ['"', ':', ' ']) ++ (pyDumps v).toList))
                ++ '\x7d' :: rest = _
            simp [List.append_assoc]
          have hstr := parseStr_roundtrip k
            (':' :: ' ' :: ((pyDumps v).toList ++ '\x7d' :: rest)) hw4.1
          have hstr2 : parseStr (k.data ++ '"' :: ':' :: ' '
              :: ((pyDumps v).data ++ '\x7d' :: rest))
              = some (k, ':' :: ' ' :: ((pyDumps v).data ++ '\x7d' :: rest)) := hstr
          have hv := ihV v ('\x7d' :: rest) hw4.2.1
            (by simp only [jsizeObj] at hsz; omega) (by rfl)
          have hvws : parseVal fuel
              (' ' :: ((pyDumps v).toList ++ '\x7d' :: rest)) = some (v, '\x7d' :: rest) := by
            have h2 := parseVal_ws fuel [' '] ((pyDumps v).toList ++ '\x7d' :: rest)
              (by decide)
            rw [show (' ' :: ((pyDumps v).toList ++ '\x7d' :: rest))
              = [' '] ++ ((pyDumps v).toList ++ '\x7d' :: rest) from rfl, h2, hv]
          have hvws2 : parseVal fuel
              (' ' :: ((pyDumps v).data ++ '\x7d' :: rest)) = some (v, '\x7d' :: rest) := hvws
          have hskip1 : skipWs (':' :: ' ' :: ((pyDumps v).data ++ '\x7d' :: rest))
              = ':' :: ' ' :: ((pyDumps v).data ++ '\x7d' :: rest) :=
            skipWs_cons_neg _ _ (by decide)
          simp only [parseMembers]
          rw [hcs, skipWs_cons_neg '"'
            (k.toList ++ '"' :: ':' :: ' ' :: ((pyDumps v).toList ++ '\x7d' :: rest))
            (by decide)]
          simp [hstr, hstr2, hskip1,
            hvws, hvws2, skipWs_cons_neg '\x7d' rest (by decide), hins]
        | cons p2 t2 =>
          have hfresh2 : ∀ q ∈ (p2 :: t2), q.1 ∉ ((acc ++ [(k, v)]).map Prod.fst) := by
            intro q hq
            rw [List.map_append, List.mem_append]
            rintro (hin | hin)
            · exact hfresh q (List.mem_cons_of_mem _ hq) hin
            · simp only [List.map_cons, List.map_nil, List.mem_singleton] at hin
              exact (List.any_eq_false.mp hw4.2.2.1 q hq) (decide_eq_true hin)
          have hcs : (pyDumpsObj ((k, v) :: p2 :: t2)).toList ++ '\x7d' :: rest
              = '"' :: (k.toList ++ '"' :: ':' :: ' '
                :: ((pyDumps v).toList
                  ++ ',' :: ' ' :: ((pyDumpsObj (p2 :: t2)).toList ++ '\x7d' :: rest))) := by
            show ('"' :: ((((k.toList ++ ['"', ':', ' ']) ++ (pyDumps v).toList)
                ++ [',', ' ']) ++ (pyDumpsObj (p2 :: t2)).toList)) ++ '\x7d' :: rest = _
            simp [List.append_assoc]
          have hstr := parseStr_roundtrip k
            (':' :: ' ' :: ((pyDumps v).toList
              ++ ',' :: ' ' :: ((pyDumpsObj (p2 :: t2)).toList ++ '\x7d' :: rest))) hw4.1
          have hstr2 : parseStr (k.data ++ '"' :: ':' :: ' '
              :: ((pyDumps v).data
                ++ ',' :: ' ' :: ((pyDumpsObj (p2 :: t2)).data ++ '\x7d' :: rest)))
              = some (k, ':' :: ' ' :: ((pyDumps v).data
                ++ ',' :: ' ' :: ((pyDumpsObj (p2 :: t2)).data ++ '\x7d' :: rest))) := hstr
          have hv := ihV v
            (',' :: ' ' :: ((pyDumpsObj (p2 :: t2)).toList ++ '\x7d' :: rest)) hw4.2.1
            (by simp only [jsizeObj] at hsz; omega) (by rfl)
          have hvws : parseVal fuel
              (' ' :: ((pyDumps v).toList
                ++ ',' :: ' ' :: ((pyDumpsObj (p2 :: t2)).toList ++ '\x7d' :: rest)))
              = some (v, ',' :: ' ' :: ((pyDumpsObj (p2 :: t2)).toList ++ '\x7d' :: rest)) := by
            have h2 := parseVal_ws fuel [' ']
              ((pyDumps v).toList
                ++ ',' :: ' ' :: ((pyDumpsObj (p2 :: t2)).toList ++ '\x7d' :: rest))
              (by decide)
            rw [show (' ' :: ((pyDumps v).toList
                ++ ',' :: ' ' :: ((pyDumpsObj (p2 :: t2)).toList ++ '\x7d' :: rest)))
              = [' '] ++ ((pyDumps v).toList
                ++ ',' :: ' ' :: ((pyDumpsObj (p2 :: t2)).toList ++ '\x7d' :: rest))
              from rfl, h2, hv]
          have hvws2 : parseVal fuel
              (' ' :: ((pyDumps v).data
                ++ ',' :: ' ' :: ((pyDumpsObj (p2 :: t2)).data ++ '\x7d' :: rest)))
              = some (v, ',' :: ' ' :: ((pyDumpsObj (p2 :: t2)).data ++ '\x7d' :: rest)) := hvws
          have hrec : parseMembers fuel
              (' ' :: ((pyDumpsObj (p2 :: t2)).toList ++ '\x7d' :: rest)) (acc ++ [(k, v)])
              = parseMembers fuel
                ((pyDumpsObj (p2 :: t2)).toList ++ '\x7d' :: rest) (acc ++ [(k, v)]) :=
            parseMembers_ws fuel [' '] _ _ (by decide)
          have hrec2 : parseMembers fuel
              (' ' :: ((pyDumpsObj (p2 :: t2)).data ++ '\x7d' :: rest)) (acc ++ [(k, v)])
              = parseMembers fuel
                ((pyDumpsObj (p2 :: t2)).data ++ '\x7d' :: rest) (acc ++ [(k, v)]) := hrec
          have htail := ihM (p2 :: t2) (acc ++ [(k, v)]) rest hw4.2.2.2 (by simp) hfresh2
            (by have := jsize_pos v; simp only [jsizeObj] at hsz ⊢; omega)
          have htail2 : parseMembers fuel
              ((pyDumpsObj (p2 :: t2)).data ++ '\x7d' :: rest) (acc ++ [(k, v)])
              = some (.obj ((acc ++ [(k, v)]) ++ p2 :: t2), rest) := htail
          simp only [parseMembers]
          rw [hcs, skipWs_cons_neg '"' _ (by decide)]
          simp [hstr, hstr2,
            skipWs_cons_neg ':' _ (by decide),
            hvws, hvws2,
            skipWs_cons_neg ',' _ (by decide),
            hins, hrec, hrec2, htail, htail2, List.append_assoc]

/-- json.loads inverts json.dumps on well-formed values: re-encoding
preserves the JSON value even though it does not preserve the bytes. -/
theorem pyLoads_pyDumps (j : Json) (hwf : wfJson j = true) :
    pyLoads (pyDumps j) = some j := by
  have h := (parse_dumps ((pyDumps j).length + 1)).1 j [] hwf
    (by have := jsize_le_dumps j; omega) rfl
  rw [List.append_nil] at h
  rw [pyLoads, h]
  simp [skipWs]


/-- Claim C1 (counterexample).  The syntactically valid, empty-free
body read from the client is NOT forwarded byte-for-byte: the wrapper
re-encodes the parsed envelope with json.dumps, whose default
separators insert a space after the colon, so the compact client
body comes out rewritten. -/
theorem claim_C1_counterexample :
    ASGITransportWrapper.forward_body "\x7b\"a\":1\x7d" = .bytes "\x7b\"a\": 1\x7d"
    ∧ "\x7b\"a\": 1\x7d" ≠ "\x7b\"a\":1\x7d" := by
  constructor
  · have hd : pyDumps (Json.obj [("a", Json.num 1)]) = "\x7b\"a\": 1\x7d" := by
      have h1 : natDigits 1 = ['1'] := by
        unfold natDigits
        rw [dif_pos (by norm_num : (1 : Nat) < 10)]
        rfl
      show "\x7b" ++ ("\"" ++ "a" ++ "\": " ++ (intChars 1).asString) ++ "\x7d" = _
      rw [intChars, if_neg (by decide : ¬((1 : Int) < 0)),
        show (1 : Int).natAbs = 1 from rfl, h1]
      rfl
    have hfb : ASGITransportWrapper.forward_body "\x7b\"a\":1\x7d"
        = .bytes (pyDumps (.obj [("a", Json.num 1)])) := by
      have hinc : ProtocolInterceptor.handle_incoming "\x7b\"a\":1\x7d"
          = .msg [("a", Json.num 1)] := rfl
      simp only [ASGITransportWrapper.forward_body,
        if_neg (by decide : ¬("\x7b\"a\":1\x7d" = "")), hinc]
      rfl
    rw [hfb, hd]
  · decide

/-- Claim C1 (amended).  What the wrapper actually guarantees on the
request-body path (asgi_wrapper.py lines 87 to 114): (1) a body that
json.loads rejects is forwarded byte-identically; (2) a body parsed
to an envelope without a top-level "_raw" member is forwarded as the
json.dumps re-encoding of the parsed envelope, not as the original
bytes; (3) that re-encoding is value-faithful: re-parsing it yields
exactly the parsed envelope, for every well-formed envelope; (4) the
envelope the wrapper re-encodes is exactly the json.loads parse of
the client body. -/
theorem claim_C1_forward_body :
    (∀ b : String, pyLoads b = none →
      ASGITransportWrapper.forward_body b = .bytes b)
    ∧ (∀ (b : String) (fields : List (String × Json)), b ≠ "" →
        ProtocolInterceptor.handle_incoming b = .msg fields →
        lookupField fields "_raw" = none →
        ASGITransportWrapper.forward_body b = .bytes (pyDumps (.obj fields)))
    ∧ (∀ fields : List (String × Json), wfJsonObj fields = true →
        pyLoads (pyDumps (.obj fields)) = some (.obj fields))
    ∧ (∀ (b : String) (fields : List (String × Json)),
        ProtocolInterceptor.handle_incoming b = .msg fields →
        pyLoads b = some (.obj fields)) := by
  refine ⟨?_, ?_, ?_, ?_⟩
  · intro b h
    by_cases hb : b = ""
    · subst hb
      rfl
    · simp only [ASGITransportWrapper.forward_body, ProtocolInterceptor.handle_incoming,
        h, if_neg hb]
  · intro b fields hb hmsg hraw
    simp only [ASGITransportWrapper.forward_body, if_neg hb, hmsg, hraw]
  · intro fields hwf
    exact pyLoads_pyDumps (.obj fields) hwf
  · intro b fields hmsg
    cases hpl : pyLoads b with
    | none =>
      simp [ProtocolInterceptor.handle_incoming, hpl] at hmsg
    | some j =>
      cases j with
      | obj l =>
        simp only [ProtocolInterceptor.handle_incoming, hpl] at hmsg
        cases hlf : lookupField l "params" with
        | none =>
          simp only [hlf] at hmsg
          injection hmsg with h2
          subst h2
          rfl
        | some v =>
          simp only [hlf] at hmsg
          split at hmsg
          · exact absurd hmsg (by simp)
          · injection hmsg with h2
            subst h2
            rfl
      | null => simp [ProtocolInterceptor.handle_incoming, hpl] at hmsg
      | bool bb => simp [ProtocolInterceptor.handle_incoming, hpl] at hmsg
      | num nn => simp [ProtocolInterceptor.handle_incoming, hpl] at hmsg
      | str ss => simp [ProtocolInterceptor.handle_incoming, hpl] at hmsg
      | arr ll => simp [ProtocolInterceptor.handle_incoming, hpl] at hmsg

/-- Claim C1 amended theorem instantiated: a malformed body passes
through untouched; the compact body is re-encoded with the default
separators and the re-encoding parses back to the same envelope,
which is the parse of the client body. -/
theorem claim_C1_forward_body_witness :
    ASGITransportWrapper.forward_body "not json" = .bytes "not json"
    ∧ ASGITransportWrapper.forward_body "\x7b\"a\":1\x7d"
        = .bytes (pyDumps (Json.obj [("a", Json.num 1)]))
    ∧ pyLoads (pyDumps (Json.obj [("a", Json.num 1)]))
        = some (Json.obj [("a", Json.num 1)])
    ∧ pyLoads "\x7b\"a\":1\x7d" = some (Json.obj [("a", Json.num 1)]) :=
  ⟨claim_C1_forward_body.1 "not json" (by rfl),
   claim_C1_forward_body.2.1 "\x7b\"a\":1\x7d" [("a", Json.num 1)]
     (by decide) (by rfl) (by rfl),
   claim_C1_forward_body.2.2.1 [("a", Json.num 1)] (by decide),
   claim_C1_forward_body.2.2.2 "\x7b\"a\":1\x7d" [("a", Json.num 1)] (by rfl)⟩

end McpDb
